import Mathlib

/-
  Verification development for the anuvad paginated text-layout / PDF overlay
  engine.  The repository contains three variants of `createTranslatedPdf`:

  * the generate-pdf route (src/unnamed/part_002): character-level line
    fitting with a printable-ASCII pre-filter, drawing every chunk at
    x = margin;
  * the process-document route (src/unnamed/part_003, second half): greedy
    word wrap with per-run x advance and inline bold runs, no character
    filter;
  * the Gemini route (src/unnamed/part_004): no wrapping at all, a try/catch
    fallback renderer.

  All text is modelled as `List Char` (JS strings).  Font measurement
  `font.widthOfTextAtSize(text, size)` is modelled by an arbitrary per-glyph
  width function `cw : Char → Nat` summed over the string (pdf-lib's standard
  fonts measure text as the sum of scaled glyph advance widths, with no
  kerning); quantifying over `cw` covers every font and font size.
  The constants hard-coded in the source are kept: margin = 50,
  lineHeight = 16, default added page = 612 × 792 (pdf-lib `addPage()`
  default Letter geometry).
-/

namespace Anuvad

/-- Page geometry `{ width, height }` as returned by `page.getSize()`. -/
structure Geom where
  width : Int
  height : Int
deriving DecidableEq

/-- A drawn text run: one `page.drawText(text, {x, y, font})` call.
`bold` records which of the two embedded fonts was used, `page` the index of
the page drawn on. -/
structure Run where
  text : List Char
  bold : Bool
  page : Nat
  x : Int
  y : Int
deriving DecidableEq

/-- The mutable state of `createTranslatedPdf`: the document's page list,
`currentPageIndex`, `xPosition`, `yPosition`, and the runs drawn so far. -/
structure St where
  pages : List Geom
  pi : Nat
  x : Int
  y : Int
  runs : List Run
deriving DecidableEq

/-- Width of a string under per-glyph widths `cw`: models
`font.widthOfTextAtSize` (additive glyph metrics). -/
def widthOf (cw : Char → Nat) (s : List Char) : Nat :=
  (s.map cw).sum

/-- Font selection `isBold ? boldFont : regularFont`. -/
def sel (cwR cwB : Char → Nat) (b : Bool) : Char → Nat :=
  if b then cwB else cwR

/-- Printable-ASCII test: the regex character class `[\x20-\x7E]` of
`filterUnsupportedCharacters` (src/unnamed/part_002 lines 5-8). -/
def supported (c : Char) : Bool :=
  decide (0x20 ≤ c.toNat) && decide (c.toNat ≤ 0x7E)

/-- `filterUnsupportedCharacters`: keep exactly the `[\x20-\x7E]` characters. -/
def filterChars (s : List Char) : List Char :=
  s.filter supported

/-- JavaScript whitespace test used by `String.prototype.trim` (restricted to
the code points that can actually occur here). -/
def isWsC (c : Char) : Bool :=
  c == ' ' || c == '\t' || c == '\n' || c == '\r' || c == '\x0b' || c == '\x0c'

/-- JavaScript `s.trim()`. -/
def jsTrim (s : List Char) : List Char :=
  ((s.dropWhile isWsC).reverse.dropWhile isWsC).reverse

/-- JavaScript `s.split(sep)` for a single-character separator: keeps empty
pieces, and `"".split(sep) = [""]`. -/
def splitOn (sep : Char) : List Char → List (List Char)
  | [] => [[]]
  | c :: cs =>
      let r := splitOn sep cs
      if c == sep then [] :: r
      else
        match r with
        | [] => [[c]]
        | w :: ws => (c :: w) :: ws

/-- Index of the first occurrence of `**` in `s` (`some p` iff
`s[p] = s[p+1] = '*'` and `p` is least such). -/
def starIdx : List Char → Option Nat
  | [] => none
  | [_] => none
  | a :: b :: rest =>
      if a = '*' ∧ b = '*' then some 0 else (starIdx (b :: rest)).map (· + 1)

/-- Leftmost match of the regex `\*\*.*?\*\*` on a newline-free string:
`some (p, e)` means the match spans indices `[p, e)`.  The leftmost starting
position is the first `**` occurrence `p`, and the lazy `.*?` makes the match
end at the first `**` occurrence at index `≥ p + 2`. -/
def matchEmph (s : List Char) : Option (Nat × Nat) :=
  match starIdx s with
  | none => none
  | some p =>
      match starIdx (s.drop (p + 2)) with
      | none => none
      | some k => some (p, p + 4 + k)

/-- Fuel-indexed body of `s.split(/(\*\*.*?\*\*)/g)`: the pieces between
matches interleaved with the captured matches themselves (JavaScript `split`
with a capture group keeps the delimiters).  Each match consumes at least
four characters, so fuel `s.length` always suffices. -/
def splitPartsF : Nat → List Char → List (List Char)
  | 0, s => [s]
  | fuel + 1, s =>
      match matchEmph s with
      | none => [s]
      | some pe =>
          s.take pe.1 :: (s.drop pe.1).take (pe.2 - pe.1) :: splitPartsF fuel (s.drop pe.2)

/-- JavaScript `s.split(/(\*\*.*?\*\*)/g)`. -/
def splitParts (s : List Char) : List (List Char) :=
  splitPartsF s.length s

/-- JavaScript `part.startsWith('**')`. -/
def startsStars : List Char → Bool
  | '*' :: '*' :: _ => true
  | _ => false

/-- `part.startsWith('**') && part.endsWith('**')` — the bold classification
applied to every split part (also in the UI's `FormattedText`,
src/unnamed/part_001 lines 23-36). -/
def isBoldPart (p : List Char) : Bool :=
  startsStars p && startsStars p.reverse

/-- `isBold ? part.slice(2, -2) : part`: the drawn text of a part.
`slice(2, -2)` is the characters at indices `[2, length - 2)`. -/
def stripPart (p : List Char) : List Char :=
  if isBoldPart p then (p.drop 2).take (p.length - 4) else p

/-- The styled segments the markup parser hands to drawing: empty parts are
skipped (`if (part === '') continue`), each remaining part is classified and
stripped. -/
def parseSegs (s : List Char) : List (List Char × Bool) :=
  (splitParts s).filterMap fun p =>
    if p.isEmpty then none else some (stripPart p, isBoldPart p)

/-- Concatenation of the segment texts (markup already stripped). -/
def segsText (s : List Char) : List Char :=
  ((parseSegs s).map Prod.fst).flatten

/-- Geometry of `currentPage` (`pages[currentPageIndex]`); the default is
never consulted while `pi < pages.length`. -/
def curGeom (st : St) : Geom :=
  st.pages.getD st.pi ⟨612, 792⟩

/-- Append one `drawText` call at the current position. -/
def emit (st : St) (b : Bool) (t : List Char) : St :=
  { st with runs := st.runs ++ [⟨t, b, st.pi, st.x, st.y⟩] }

/-- The shared page-advance check of part_002 (lines 106-114) and part_003
(lines 219-227 and 250-258):
`if (yPosition < margin) { currentPageIndex++; … }`, reusing the next
existing page's geometry when there is one and otherwise appending a page
with pdf-lib's `addPage()` default geometry 612 × 792;
`yPosition = currentPage.getSize().height - margin` after the switch. -/
def pageCheck (st : St) : St :=
  if st.y < 50 then
    if st.pi + 1 < st.pages.length then
      { st with pi := st.pi + 1, y := (st.pages.getD (st.pi + 1) ⟨612, 792⟩).height - 50 }
    else
      { st with pages := st.pages ++ [⟨612, 792⟩], pi := st.pi + 1, y := 742 }
  else st

/-- Word loop of part_003 (lines 194-243).  `cur` is `currentWord`; the base
case performs the trailing `if (currentWord) { drawText; xPosition += … }`.
The test is `xPosition + testWidth > currentPage.getSize().width - margin`;
on failure the accumulated text is drawn, the cursor moves to a fresh line,
and the rejected word starts the next accumulation. -/
def procWords (cwR cwB : Char → Nat) (b : Bool) :
    List (List Char) → List Char → St → St
  | [], cur, st =>
      if cur.isEmpty then st
      else
        let st1 := emit st b cur
        { st1 with x := st1.x + (widthOf (sel cwR cwB b) (cur ++ [' ']) : Int) }
  | w :: ws, cur, st =>
      let test := if cur.isEmpty then w else cur ++ ' ' :: w
      if (curGeom st).width - 50 < st.x + (widthOf (sel cwR cwB b) test : Int) then
        let st1 := if cur.isEmpty then st else emit st b cur
        procWords cwR cwB b ws w (pageCheck { st1 with y := st1.y - 16, x := 50 })
      else
        procWords cwR cwB b ws test st

/-- One part of part_003's part loop (lines 186-244): skip empty parts,
classify, strip, split into words on single spaces, run the word loop with
an empty `currentWord`. -/
def procPart (cwR cwB : Char → Nat) (st : St) (p : List Char) : St :=
  if p.isEmpty then st
  else procWords cwR cwB (isBoldPart p) (splitOn ' ' (stripPart p)) [] st

/-- One input line of part_003 (lines 177-259): a blank line only consumes
`lineHeight` (and skips the page check); otherwise `xPosition = margin`, all
parts are processed, then `yPosition -= lineHeight` and the page check runs. -/
def procLine (cwR cwB : Char → Nat) (st : St) (l : List Char) : St :=
  if (jsTrim l).isEmpty then { st with y := st.y - 16 }
  else
    let st1 := (splitParts l).foldl (procPart cwR cwB) { st with x := 50 }
    pageCheck { st1 with y := st1.y - 16 }

/-- Layout loop of part_003's `createTranslatedPdf` (lines 148-259), for a
source document whose pages have geometries `srcPages` (the code reads
`pages[0]`, so it requires a non-empty page list).  No character filtering
happens in this variant: `line.split(/(\*\*.*?\*\*)/g)` is applied to the
raw line. -/
def layout3 (cwR cwB : Char → Nat) (srcPages : List Geom) (text : List Char) : St :=
  (splitOn '\n' text).foldl (procLine cwR cwB)
    { pages := srcPages, pi := 0, x := 50,
      y := (srcPages.headD ⟨612, 792⟩).height - 50, runs := [] }

/-- Inner scan of part_002's fitting loop (lines 64-91): starting from
accumulated width `acc` at index `i`, return the first index whose
one-character extension makes the prefix wider than `mw`
(`width(remainingText.slice(0, i + 1)) > maxWidth`), or `none` when the whole
text fits. -/
def fitIdxA (cw : Char → Nat) (mw : Int) : List Char → Nat → Int → Option Nat
  | [], _, _ => none
  | c :: rest, i, acc =>
      if mw < acc + (cw c : Int) then some i
      else fitIdxA cw mw rest (i + 1) (acc + (cw c : Int))

/-- First index `i` with `width(s.slice(0, i + 1)) > mw`, if any. -/
def fitIdx (cw : Char → Nat) (mw : Int) (s : List Char) : Option Nat :=
  fitIdxA cw mw s 0 0

/-- JavaScript `s.lastIndexOf(' ', i)`: the greatest index `j ≤ i` holding a
space, as an `Option` (`none` for JavaScript's `-1`). -/
def lastSpaceLE (s : List Char) : Nat → Option Nat
  | 0 => if s.getD 0 'x' = ' ' then some 0 else none
  | i + 1 => if s.getD (i + 1) 'x' = ' ' then some (i + 1) else lastSpaceLE s i

/-- One iteration of part_002's `while (remainingText.length > 0)` body
(lines 62-91): compute `(currentLine, new remainingText)`.  If the whole text
fits, it is consumed entirely; otherwise break at the last space at or before
the overflow index, or at the overflow index itself when no space precedes. -/
def fitStep (cw : Char → Nat) (mw : Int) (s : List Char) : List Char × List Char :=
  match fitIdx cw mw s with
  | none => (s, [])
  | some i =>
      match lastSpaceLE s i with
      | some j => (s.take j, s.drop (j + 1))
      | none => (s.take i, s.drop i)

/-- part_002's per-part while loop, fuel-indexed.  Each drawn chunk is
`currentLine.trim()` at `x = margin` (part_002 keeps `xPosition` constant),
followed by `yPosition -= lineHeight` and the page check.  The source loop
does not terminate when an iteration makes no progress (see the C10
analysis); the model stops in exactly that case, and the fuel
`remainingText.length + 1` is enough for every progressing run. -/
def procPart2F (cwR cwB : Char → Nat) (b : Bool) (mw : Int) :
    Nat → List Char → St → St
  | 0, _, st => st
  | fuel + 1, rem, st =>
      if rem.isEmpty then st
      else
        let pr := fitStep (sel cwR cwB b) mw rem
        let st1 := emit { st with x := 50 } b (jsTrim pr.1)
        let st2 := pageCheck { st1 with y := st1.y - 16 }
        if pr.2.length < rem.length then procPart2F cwR cwB b mw fuel pr.2 st2 else st2

/-- part_002's per-part loop with its canonical fuel. -/
def procPart2 (cwR cwB : Char → Nat) (b : Bool) (mw : Int)
    (rem : List Char) (st : St) : St :=
  procPart2F cwR cwB b mw (rem.length + 1) rem st

/-- One input line of part_002 (lines 41-117): blank lines only consume
height; otherwise the line is filtered to printable ASCII, split on the
emphasis regex, and each non-empty part is stripped and wrapped. -/
def procLine2 (cwR cwB : Char → Nat) (mw : Int) (st : St) (l : List Char) : St :=
  if (jsTrim l).isEmpty then { st with y := st.y - 16 }
  else
    (splitParts (filterChars l)).foldl
      (fun st p =>
        if p.isEmpty then st
        else procPart2 cwR cwB (isBoldPart p) mw (stripPart p) st) st

/-- Layout loop of part_002's `createTranslatedPdf` (lines 10-121):
`maxWidth = pages[0].width - 2 * margin` is computed once from the first
page. -/
def layout2 (cwR cwB : Char → Nat) (srcPages : List Geom) (text : List Char) : St :=
  (splitOn '\n' text).foldl
    (procLine2 cwR cwB ((srcPages.headD ⟨612, 792⟩).width - 100))
    { pages := srcPages, pi := 0, x := 50,
      y := (srcPages.headD ⟨612, 792⟩).height - 50, runs := [] }

/-- One `page.drawRectangle({x, y, width, height})` call, tagged with the
index of the page it is painted on. -/
structure RectOp where
  page : Nat
  x : Int
  y : Int
  w : Int
  h : Int
deriving DecidableEq

/-- Erase pass of part_002 (lines 27-36) and part_003 (lines 164-173):
`pdfDoc.getPages().forEach(page => page.drawRectangle({x:0, y:0, width,
height, color: white}))` — one full-page rectangle per page, in page order,
issued before any text is drawn. -/
def eraseAllPages (pages : List Geom) : List RectOp :=
  pages.enum.map fun pg => ⟨pg.1, 0, 0, pg.2.width, pg.2.height⟩

/-- Erase pass of part_004 (lines 96-104): a single full-page rectangle on
`pages[0]` only. -/
def eraseFirstPage (pages : List Geom) : List RectOp :=
  (pages.take 1).map fun g => ⟨0, 0, 0, g.width, g.height⟩

/-- Failure kinds of the part_004 assembler: `PDFDocument.load` rejection,
`embedFont` rejection, `pages[0]` being absent, and pdf-lib's
"cannot encode character" error thrown by `drawText`. -/
inductive PdfErr
  | loadErr
  | embedErr
  | noPage
  | encodeErr
deriving DecidableEq

/-- Encodability of pdf-lib's standard fonts (Helvetica and its variants,
the only fonts part_004 embeds), which encode text as WinAnsi (code page
1252): printable ASCII 0x20-0x7E, the Latin-1 block 0xA0-0xFF, and the
cp1252 additions mapped into 0x80-0x9F.  `drawText` with such a font throws
"cannot encode" on any character outside this set — so é (0xE9) encodes
fine, while any Devanagari letter does not. -/
def winAnsi (c : Char) : Bool :=
  (0x20 ≤ c.toNat && c.toNat ≤ 0x7E) || (0xA0 ≤ c.toNat && c.toNat ≤ 0xFF) ||
  ['\u20AC', '\u201A', '\u0192', '\u201E', '\u2026', '\u2020', '\u2021',
   '\u02C6', '\u2030', '\u0160', '\u2039', '\u0152', '\u017D', '\u2018',
   '\u2019', '\u201C', '\u201D', '\u2022', '\u2013', '\u2014', '\u02DC',
   '\u2122', '\u0161', '\u203A', '\u0153', '\u017E', '\u0178'].contains c

/-- One `drawText` call of the part_004 variant (always on the first page,
since `currentPage` is never reassigned there). -/
structure TextOp where
  text : List Char
  x : Int
  y : Int
deriving DecidableEq

/-- The document part_004 assembles: pages, number of embedded fonts, erase
rectangles, drawn texts. -/
structure Doc4 where
  pages : List Geom
  fonts : Nat
  rects : List RectOp
  texts : List TextOp
deriving DecidableEq

/-- Line loop of part_004 (lines 106-124).  Before each line: if
`yPosition < margin`, append a page with the first page's geometry `(w, h)`
and reset `y` (but keep drawing on `currentPage`, which part_004 never
reassigns).  Non-blank lines are drawn raw — no filtering, no markup
handling, no wrapping — so a line containing a glyph the font cannot encode
makes `drawText` throw (`canEnc` is the font's encodability test; for the
standard fonts part_004 embeds it is `winAnsi`). -/
def loop4 (canEnc : Char → Bool) (w h : Int) :
    List (List Char) → Int → Doc4 → Except PdfErr Doc4
  | [], _, d => .ok d
  | l :: ls, y, d =>
      let yd : Int × Doc4 :=
        if y < 50 then (h - 50, { d with pages := d.pages ++ [⟨w, h⟩] }) else (y, d)
      if (jsTrim l).isEmpty then loop4 canEnc w h ls (yd.1 - 16) yd.2
      else if l.all canEnc then
        loop4 canEnc w h ls (yd.1 - 16)
          { yd.2 with texts := yd.2.texts ++ [⟨l, 50, yd.1⟩] }
      else .error .encodeErr

/-- Primary path of part_004's `createTranslatedPdf` (lines 76-126): load the
source when it is a PDF (else create a document and add one Letter page after
embedding the fonts), embed two fonts, erase the first page, draw each line. -/
def primary4 (canEnc : Char → Bool) (loadOk embedOk : Bool) (mimePdf : Bool)
    (srcPages : List Geom) (text : List Char) : Except PdfErr Doc4 :=
  match (if mimePdf then (if loadOk then Except.ok srcPages else .error .loadErr)
         else Except.ok ([] : List Geom)) with
  | .error e => .error e
  | .ok base =>
      if embedOk then
        match (if mimePdf then base else base ++ [⟨612, 792⟩]) with
        | [] => .error .noPage
        | g0 :: rest =>
            loop4 canEnc g0.width g0.height (splitOn '\n' text) (g0.height - 50)
              ⟨g0 :: rest, 2, [⟨0, 0, 0, g0.width, g0.height⟩], []⟩
      else .error .embedErr

/-- Fallback renderer of part_004 (lines 127-143): fresh document, one
612 × 792 page, one regular font, one `drawText` of the whole translated text
at (50, 750).  Any throw inside this catch block escapes to the caller. -/
def fallback4 (canEnc : Char → Bool) (fbEmbedOk : Bool) (text : List Char) :
    Except PdfErr Doc4 :=
  if fbEmbedOk then
    if text.all canEnc then .ok ⟨[⟨612, 792⟩], 1, [], [⟨text, 50, 750⟩]⟩
    else .error .encodeErr
  else .error .embedErr

/-- part_004's `createTranslatedPdf`: the primary path inside `try`, the
fallback renderer in the `catch`. -/
def createTranslatedPdf4 (canEnc : Char → Bool) (loadOk embedOk fbEmbedOk : Bool)
    (mimePdf : Bool) (srcPages : List Geom) (text : List Char) : Except PdfErr Doc4 :=
  match primary4 canEnc loadOk embedOk mimePdf srcPages text with
  | .ok d => .ok d
  | .error _ => fallback4 canEnc fbEmbedOk text

/-- The runs of `R` sharing the baseline `y` on page `p` — one VisualLine. -/
def lineOf (R : List Run) (p : Nat) (y : Int) : List Run :=
  R.filter fun r => r.page == p && r.y == y

/-- Right edge of a run: its x position plus its measured width. -/
def rext (cwR cwB : Char → Nat) (r : Run) : Int :=
  r.x + (widthOf (sel cwR cwB r.bold) r.text : Int)

/-- A run fits when its right edge stays at or left of
`pageWidth - margin = 612 - 50` (equivalently, the line content starting at
the left margin is at most `maxWidth = 512` wide). -/
def fitsRun (cwR cwB : Char → Nat) (r : Run) : Prop :=
  rext cwR cwB r ≤ 562

/-- A pathological run: a single word (no space) wider than
`maxWidth = 512` on its own. -/
def overflowRun (cwR cwB : Char → Nat) (r : Run) : Prop :=
  512 < (widthOf (sel cwR cwB r.bold) r.text : Int) ∧ ' ' ∉ r.text

/-- The width invariant of one visual line: either every run ends within the
right margin, or the line is exactly one pathological single-word run. -/
def goodLine (cwR cwB : Char → Nat) (L : List Run) : Prop :=
  (∀ r ∈ L, fitsRun cwR cwB r) ∨ ∃ r, L = [r] ∧ overflowRun cwR cwB r

/-- Valid page index and all pages of Letter width (the uniform-`maxWidth`
setting of the claims; appended default pages are 612 wide as well). -/
def pagesOk (st : St) : Prop :=
  st.pi < st.pages.length ∧ ∀ g ∈ st.pages, g.width = 612

/-- Drawing position monotonicity: every run already drawn lies on an earlier
page, or on the current page at or above the current baseline. -/
def monoSt (st : St) : Prop :=
  ∀ r ∈ st.runs, r.page ≤ st.pi ∧ (r.page = st.pi → st.y ≤ r.y)

/-- Every already-completed visual line satisfies the width invariant. -/
def closedGood (cwR cwB : Char → Nat) (st : St) : Prop :=
  ∀ p y, ¬(p = st.pi ∧ y = st.y) → goodLine cwR cwB (lineOf st.runs p y)

/-- State of the visual line currently being filled: either all its runs fit
and end at or before the pen `x`, or it is a single pathological run and the
pen has moved past the right margin. -/
def curC (cwR cwB : Char → Nat) (st : St) : Prop :=
  (∀ r ∈ lineOf st.runs st.pi st.y, fitsRun cwR cwB r ∧ rext cwR cwB r ≤ st.x)
  ∨ ∃ r, lineOf st.runs st.pi st.y = [r] ∧ overflowRun cwR cwB r ∧ 562 < st.x

/-- Every drawn run starts at or right of the left margin. -/
def runsX (st : St) : Prop :=
  ∀ r ∈ st.runs, 50 ≤ r.x

/-- Full state invariant of part_003's layout loop. -/
def stInv (cwR cwB : Char → Nat) (st : St) : Prop :=
  pagesOk st ∧ monoSt st ∧ closedGood cwR cwB st ∧ curC cwR cwB st ∧
    50 ≤ st.x ∧ runsX st

/-- Invariant of `currentWord` inside the word loop: it is empty, or adding
it at the pen keeps the line within the right margin (its last width test
passed), or it is the word just rejected by a width test — placed at a fresh
line start, on an empty line, and containing no space. -/
def curInv (cw : Char → Nat) (st : St) (cur : List Char) : Prop :=
  cur = [] ∨ st.x + (widthOf cw cur : Int) ≤ 562 ∨
    (st.x = 50 ∧ lineOf st.runs st.pi st.y = [] ∧ ' ' ∉ cur)

/-- The part_002 layout invariant: valid Letter-width pages, monotone
positions, every run at the margin and at most `maxWidth = 512` wide, every
visual line a single run, current line empty. -/
def inv2 (cwR cwB : Char → Nat) (st : St) : Prop :=
  pagesOk st ∧ monoSt st ∧
    (∀ r ∈ st.runs, (widthOf (sel cwR cwB r.bold) r.text : Int) ≤ 512 ∧ r.x = 50) ∧
    (∀ p y, (lineOf st.runs p y).length ≤ 1) ∧
    lineOf st.runs st.pi st.y = []

/-- Every visual line of the run list `R` satisfies the width invariant. -/
def allGood (cwR cwB : Char → Nat) (R : List Run) : Prop :=
  ∀ p y, goodLine cwR cwB (lineOf R p y)

/-- Every drawn run consists of printable-ASCII characters only. -/
def charsOK (st : St) : Prop :=
  ∀ r ∈ st.runs, ∀ c ∈ r.text, supported c = true

/-- Valid pages together with a pen at or right of the left margin. -/
def xpOk (st : St) : Prop :=
  pagesOk st ∧ 50 ≤ st.x

/-- A one-unit-per-glyph width function, used to instantiate witnesses. -/
def cw1 : Char → Nat := fun _ => 1

/-- A width function making every glyph wider than `maxWidth = 512`. -/
def cwBig : Char → Nat := fun _ => 600

/-- A width function of 200 per glyph: single characters fit in
`maxWidth = 512` but four-character words do not. -/
def cw200 : Char → Nat := fun _ => 200

/-- The input line of Scenario A, `"Hello **World**"`. -/
def hwLine : List Char :=
  ['H', 'e', 'l', 'l', 'o', ' ', '*', '*', 'W', 'o', 'r', 'l', 'd', '*', '*']

/-- 100 one-character input lines joined by newlines (Scenario C). -/
def text100 : List Char :=
  List.intercalate ['\n'] (List.replicate 100 ['a'])

/-- Expected Scenario C run: the `k`-th baseline on page `p`
(margins 50, first baseline 742, lineHeight 16). -/
def runAt (p : Nat) (k : Nat) : Run :=
  ⟨['a'], false, p, 50, 742 - 16 * k⟩

/-- Expected Scenario C output for `n` one-word lines: 44 baselines per page. -/
def expRuns (n : Nat) : List Run :=
  (List.range n).map fun i => runAt (i / 44) (i % 44)

theorem widthOf_nil (cw : Char → Nat) : widthOf cw [] = 0 := rfl

theorem widthOf_cons (cw : Char → Nat) (c : Char) (t : List Char) :
    widthOf cw (c :: t) = cw c + widthOf cw t := by
  simp [widthOf]

theorem widthOf_append (cw : Char → Nat) (a b : List Char) :
    widthOf cw (a ++ b) = widthOf cw a + widthOf cw b := by
  simp [widthOf]

theorem widthOf_reverse (cw : Char → Nat) (a : List Char) :
    widthOf cw a.reverse = widthOf cw a := by
  simp [widthOf, List.map_reverse, List.sum_reverse]

theorem widthOf_sublist_le (cw : Char → Nat) {a b : List Char} (h : a.Sublist b) :
    widthOf cw a ≤ widthOf cw b := by
  induction h with
  | slnil => exact Nat.le_refl _
  | cons c _ ih =>
      calc widthOf cw _ ≤ _ := ih
        _ ≤ _ := by rw [widthOf_cons]; exact Nat.le_add_left _ _
  | cons₂ c _ ih => rw [widthOf_cons, widthOf_cons]; exact Nat.add_le_add_left ih _

theorem widthOf_jsTrim_le (cw : Char → Nat) (s : List Char) :
    widthOf cw (jsTrim s) ≤ widthOf cw s := by
  unfold jsTrim
  calc widthOf cw ((s.dropWhile isWsC).reverse.dropWhile isWsC).reverse
      = widthOf cw ((s.dropWhile isWsC).reverse.dropWhile isWsC) := widthOf_reverse ..
    _ ≤ widthOf cw (s.dropWhile isWsC).reverse :=
        widthOf_sublist_le cw (List.dropWhile_sublist _)
    _ = widthOf cw (s.dropWhile isWsC) := widthOf_reverse ..
    _ ≤ widthOf cw s := widthOf_sublist_le cw (List.dropWhile_sublist _)

theorem jsTrim_subset (s : List Char) : jsTrim s ⊆ s := by
  unfold jsTrim
  intro c hc
  rw [List.mem_reverse] at hc
  have h1 := (List.dropWhile_sublist (l := (s.dropWhile isWsC).reverse)
    (p := isWsC)).subset hc
  rw [List.mem_reverse] at h1
  exact (List.dropWhile_sublist (l := s) (p := isWsC)).subset h1

theorem widthOf_take_le (cw : Char → Nat) (s : List Char) {j i : Nat} (h : j ≤ i) :
    widthOf cw (s.take j) ≤ widthOf cw (s.take i) := by
  have : s.take j = (s.take i).take j := by
    rw [List.take_take, Nat.min_eq_left h]
  rw [this]
  exact widthOf_sublist_le cw (List.take_sublist _ _)

theorem getD_mem {α : Type _} : ∀ (l : List α) (n : Nat) (d : α), n < l.length →
    l.getD n d ∈ l
  | a :: t, 0, d, _ => List.mem_cons_self a t
  | a :: t, n + 1, d, h =>
      List.mem_cons_of_mem a (getD_mem t n d (by simpa using h))

theorem splitOn_ne_nil (sep : Char) (s : List Char) : splitOn sep s ≠ [] := by
  induction s with
  | nil => simp [splitOn]
  | cons c cs ih =>
      simp only [splitOn]
      split
      · simp
      · cases h : splitOn sep cs with
        | nil => simp
        | cons w ws => simp

theorem mem_splitOn_not_sep (sep : Char) (s : List Char) :
    ∀ w ∈ splitOn sep s, sep ∉ w := by
  induction s with
  | nil =>
      intro w hw
      simp [splitOn] at hw
      simp [hw]
  | cons c cs ih =>
      intro w hw
      simp only [splitOn] at hw
      by_cases hc : c == sep
      · rw [if_pos hc] at hw
        rcases List.mem_cons.1 hw with h | h
        · simp [h]
        · exact ih w h
      · rw [if_neg hc] at hw
        cases h : splitOn sep cs with
        | nil => exact absurd h (splitOn_ne_nil sep cs)
        | cons w0 ws =>
            rw [h] at hw
            rcases List.mem_cons.1 hw with h1 | h1
            · subst h1
              intro hmem
              rcases List.mem_cons.1 hmem with h2 | h2
              · subst h2; simp at hc
              · exact ih w0 (h ▸ List.mem_cons_self w0 ws) h2
            · exact ih w (h ▸ List.mem_cons_of_mem w0 h1)

theorem mem_splitOn_subset (sep : Char) (s : List Char) :
    ∀ w ∈ splitOn sep s, w ⊆ s := by
  induction s with
  | nil =>
      intro w hw
      simp [splitOn] at hw
      simp [hw]
  | cons c cs ih =>
      intro w hw
      simp only [splitOn] at hw
      by_cases hc : c == sep
      · rw [if_pos hc] at hw
        rcases List.mem_cons.1 hw with h | h
        · subst h; intro x hx; simp at hx
        · exact (ih w h).trans (List.subset_cons_self c cs)
      · rw [if_neg hc] at hw
        cases h : splitOn sep cs with
        | nil => exact absurd h (splitOn_ne_nil sep cs)
        | cons w0 ws =>
            rw [h] at hw
            rcases List.mem_cons.1 hw with h1 | h1
            · subst h1
              intro x hx
              rcases List.mem_cons.1 hx with h2 | h2
              · subst h2; exact List.mem_cons_self _ _
              · exact List.mem_cons_of_mem c
                  (ih w0 (h ▸ List.mem_cons_self w0 ws) h2)
            · exact (ih w (h ▸ List.mem_cons_of_mem w0 h1)).trans
                (List.subset_cons_self c cs)

theorem starIdx_bound : ∀ {s : List Char} {p : Nat}, starIdx s = some p →
    p + 2 ≤ s.length := by
  intro s
  induction s with
  | nil => intro p h; simp [starIdx] at h
  | cons a t ih =>
      intro p h
      cases t with
      | nil => simp [starIdx] at h
      | cons b rest =>
          simp only [starIdx] at h
          split at h
          · cases h; simp
          · rcases Option.map_eq_some'.1 h with ⟨q, hq, rfl⟩
            have := ih hq
            simp only [List.length_cons] at this ⊢
            omega

theorem matchEmph_bound {s : List Char} {p e : Nat} (h : matchEmph s = some (p, e)) :
    p + 4 ≤ e ∧ e ≤ s.length := by
  unfold matchEmph at h
  split at h
  · simp at h
  · rename_i q h1
    split at h
    · simp at h
    · rename_i k h2
      simp only [Option.some.injEq, Prod.mk.injEq] at h
      obtain ⟨rfl, rfl⟩ := h
      have hb1 := starIdx_bound h1
      have hb2 := starIdx_bound h2
      rw [List.length_drop] at hb2
      omega

theorem splitPartsF_flatten : ∀ (fuel : Nat) (s : List Char),
    (splitPartsF fuel s).flatten = s := by
  intro fuel
  induction fuel with
  | zero => intro s; simp [splitPartsF]
  | succ n ih =>
      intro s
      simp only [splitPartsF]
      cases h : matchEmph s with
      | none => simp
      | some pe =>
          obtain ⟨p, e⟩ := pe
          have hb := matchEmph_bound h
          simp only [List.flatten_cons, ih]
          have h1 : s.drop e = (s.drop p).drop (e - p) := by
            rw [List.drop_drop]
            congr 1
            omega
          rw [h1, List.take_append_drop, List.take_append_drop]

theorem splitParts_flatten (s : List Char) : (splitParts s).flatten = s :=
  splitPartsF_flatten s.length s

theorem mem_splitParts_subset {s p : List Char} (h : p ∈ splitParts s) : p ⊆ s := by
  intro c hc
  rw [← splitParts_flatten s]
  exact List.mem_flatten.2 ⟨p, h, hc⟩

theorem stripPart_subset (p : List Char) : stripPart p ⊆ p := by
  unfold stripPart
  split
  · exact (List.take_subset _ _).trans (List.drop_subset _ _)
  · exact List.Subset.refl _

/-- C2, counterexample: on the already-filtered input `a**b**c` the
concatenation of the stripped segment texts is `abc`, which differs from the
filtered input — the `**` delimiters of the emphasized segment are gone. -/
theorem C2_counterexample :
    segsText (filterChars ['a', '*', '*', 'b', '*', '*', 'c']) ≠
      filterChars ['a', '*', '*', 'b', '*', '*', 'c'] := by
  decide

/-- C2, amended: concatenating the raw part texts produced by the emphasis
splitter (delimiters kept — JavaScript `split` with a capture group keeps the
captured delimiters in the output) reproduces the character-filtered input
exactly; the drawn segment texts differ from the raw parts only by the
removal of the leading and trailing `**` of each part classified emphasized. -/
theorem C2_amended_round_trip (s : List Char) :
    (splitParts (filterChars s)).flatten = filterChars s :=
  splitParts_flatten (filterChars s)

theorem fitIdxA_some (cw : Char → Nat) (mw : Int) :
    ∀ (t : List Char) (i : Nat) (acc : Int) (j : Nat),
      fitIdxA cw mw t i acc = some j →
      ∃ k, j = i + k ∧ k < t.length ∧
        mw < acc + (widthOf cw (t.take (k + 1)) : Int) ∧
        ∀ m, m < k → acc + (widthOf cw (t.take (m + 1)) : Int) ≤ mw := by
  intro t
  induction t with
  | nil => intro i acc j h; simp [fitIdxA] at h
  | cons c rest ih =>
      intro i acc j h
      simp only [fitIdxA] at h
      split at h
      · rename_i hlt
        cases h
        refine ⟨0, by omega, by simp, ?_, by omega⟩
        simpa [widthOf] using hlt
      · rename_i hle
        obtain ⟨k', hj, hk, hw, hmin⟩ := ih (i + 1) (acc + (cw c : Int)) j h
        refine ⟨k' + 1, by omega, by simp; omega, ?_, ?_⟩
        · rw [List.take_succ_cons, widthOf_cons]
          push_cast
          linarith
        · intro m hm
          cases m with
          | zero =>
              rw [List.take_succ_cons, List.take_zero, widthOf_cons, widthOf_nil]
              push_cast
              omega
          | succ m' =>
              have := hmin m' (by omega)
              rw [List.take_succ_cons, widthOf_cons]
              push_cast
              push_cast at this
              linarith

theorem fitIdxA_none (cw : Char → Nat) (mw : Int) :
    ∀ (t : List Char) (i : Nat) (acc : Int),
      fitIdxA cw mw t i acc = none →
      ∀ k, k < t.length → acc + (widthOf cw (t.take (k + 1)) : Int) ≤ mw := by
  intro t
  induction t with
  | nil => intro i acc _ k hk; simp at hk
  | cons c rest ih =>
      intro i acc h k hk
      simp only [fitIdxA] at h
      split at h
      · simp at h
      · rename_i hle
        cases k with
        | zero =>
            rw [List.take_succ_cons, List.take_zero, widthOf_cons, widthOf_nil]
            push_cast
            omega
        | succ m =>
            have := ih (i + 1) (acc + (cw c : Int)) h m (by simpa using hk)
            rw [List.take_succ_cons, widthOf_cons]
            push_cast
            push_cast at this
            linarith

theorem lastSpaceLE_le (s : List Char) :
    ∀ (i : Nat) {j : Nat}, lastSpaceLE s i = some j → j ≤ i := by
  intro i
  induction i with
  | zero =>
      intro j h
      simp only [lastSpaceLE] at h
      split at h
      · cases h; exact Nat.le_refl 0
      · simp at h
  | succ n ih =>
      intro j h
      simp only [lastSpaceLE] at h
      split at h
      · cases h; exact Nat.le_refl _
      · exact (ih h).trans (Nat.le_succ n)

theorem fitStep_fst_width (cw : Char → Nat) (mw : Int) (h0 : 0 ≤ mw) (s : List Char) :
    (widthOf cw (fitStep cw mw s).1 : Int) ≤ mw := by
  unfold fitStep
  cases hf : fitIdx cw mw s with
  | none =>
      cases s with
      | nil => simpa [widthOf] using h0
      | cons c t =>
          have h1 := fitIdxA_none cw mw (c :: t) 0 0 hf t.length (by simp)
          rw [List.take_succ_cons, List.take_length] at h1
          simpa using h1
  | some i =>
      obtain ⟨k, hk, hklen, hgt, hmin⟩ := fitIdxA_some cw mw s 0 0 i hf
      have hki : k = i := by omega
      subst hki
      have hti : (widthOf cw (s.take k) : Int) ≤ mw := by
        cases k with
        | zero => simpa [widthOf] using h0
        | succ m => simpa using hmin m (Nat.lt_succ_self m)
      dsimp only
      cases hl : lastSpaceLE s k with
      | none => simpa using hti
      | some j =>
          have hj := lastSpaceLE_le s k hl
          have hmono := widthOf_take_le cw s hj
          dsimp only
          calc (widthOf cw (s.take j) : Int) ≤ (widthOf cw (s.take k) : Int) := by
                exact_mod_cast hmono
            _ ≤ mw := hti

theorem fitStep_fst_subset (cw : Char → Nat) (mw : Int) (s : List Char) :
    (fitStep cw mw s).1 ⊆ s := by
  unfold fitStep
  cases fitIdx cw mw s with
  | none => exact List.Subset.refl s
  | some i =>
      dsimp only
      cases lastSpaceLE s i with
      | none => exact List.take_subset _ _
      | some j => exact List.take_subset _ _

theorem fitStep_snd_subset (cw : Char → Nat) (mw : Int) (s : List Char) :
    (fitStep cw mw s).2 ⊆ s := by
  unfold fitStep
  cases fitIdx cw mw s with
  | none => exact List.nil_subset s
  | some i =>
      dsimp only
      cases lastSpaceLE s i with
      | none => exact List.drop_subset _ _
      | some j => exact List.drop_subset _ _

/-- C10, counterexample: when the very first character of `remainingText` is
already wider than `maxWidth` and no space is at index 0, the loop body
computed by `fitStep` leaves `remainingText` unchanged — its length does not
decrease, so the source's `while (remainingText.length > 0)` loop never
terminates there.  Concretely: glyph width 10, `maxWidth = 5`, text `"ab"`. -/
theorem C10_counterexample :
    ¬ (fitStep (fun _ => 10) 5 ['a', 'b']).2.length < (['a', 'b'] : List Char).length := by
  decide

/-- C10, amended: one iteration of the character-level fitting loop strictly
decreases `remainingText` whenever the first character of `remainingText`
fits within `maxWidth`; consequently the loop terminates for every input
whose characters each fit, but not in the first-character-too-wide,
no-space case exhibited by the counterexample. -/
theorem C10_amended_progress (cw : Char → Nat) (mw : Int) (c : Char)
    (rest : List Char) (h : (cw c : Int) ≤ mw) :
    (fitStep cw mw (c :: rest)).2.length < (c :: rest).length := by
  unfold fitStep
  cases hf : fitIdx cw mw (c :: rest) with
  | none => simp
  | some i =>
      obtain ⟨k, hk, hklen, hgt, hmin⟩ := fitIdxA_some cw mw (c :: rest) 0 0 i hf
      have hki : k = i := by omega
      subst hki
      have hi1 : 1 ≤ k := by
        rcases Nat.eq_zero_or_pos k with h0 | h0
        · subst h0
          rw [List.take_succ_cons, List.take_zero, widthOf_cons, widthOf_nil] at hgt
          push_cast at hgt
          omega
        · exact h0
      dsimp only
      cases lastSpaceLE (c :: rest) k with
      | some j =>
          simp only [List.length_drop, List.length_cons]
          omega
      | none =>
          simp only [List.length_drop, List.length_cons] at *
          omega

theorem pageCheck_runs (st : St) : (pageCheck st).runs = st.runs := by
  unfold pageCheck
  split_ifs <;> rfl

theorem pageCheck_x (st : St) : (pageCheck st).x = st.x := by
  unfold pageCheck
  split_ifs <;> rfl

theorem pageCheck_pagesOk {st : St} (h : pagesOk st) : pagesOk (pageCheck st) := by
  obtain ⟨h1, h2⟩ := h
  unfold pageCheck
  split_ifs with hy hlt
  · exact ⟨hlt, h2⟩
  · refine ⟨?_, ?_⟩
    · simp only [List.length_append, List.length_cons, List.length_nil]
      omega
    · intro g hg
      rcases List.mem_append.1 hg with hg | hg
      · exact h2 g hg
      · simp only [List.mem_singleton] at hg
        subst hg
        rfl
  · exact ⟨h1, h2⟩

theorem mem_lineOf {R : List Run} {r : Run} {p : Nat} {y : Int} :
    r ∈ lineOf R p y ↔ r ∈ R ∧ r.page = p ∧ r.y = y := by
  simp [lineOf, List.mem_filter]

theorem lineOf_eq_nil {R : List Run} {p : Nat} {y : Int}
    (h : ∀ r ∈ R, ¬(r.page = p ∧ r.y = y)) : lineOf R p y = [] := by
  rcases hl : lineOf R p y with _ | ⟨r, L⟩
  · rfl
  · have hr : r ∈ lineOf R p y := by rw [hl]; exact List.mem_cons_self r L
    rw [mem_lineOf] at hr
    exact absurd ⟨hr.2.1, hr.2.2⟩ (h r hr.1)

theorem lineOf_append (R : List Run) (r : Run) (p : Nat) (y : Int) :
    lineOf (R ++ [r]) p y =
      if r.page = p ∧ r.y = y then lineOf R p y ++ [r] else lineOf R p y := by
  unfold lineOf
  rw [List.filter_append]
  by_cases h : r.page = p ∧ r.y = y
  · rw [if_pos h]
    obtain ⟨h1, h2⟩ := h
    simp [List.filter, h1, h2]
  · rw [if_neg h]
    have hb : ((r.page == p) && (r.y == y)) = false := by
      by_cases h1 : r.page = p
      · by_cases h2 : r.y = y
        · exact absurd ⟨h1, h2⟩ h
        · simp [h2]
      · simp [h1]
    simp [List.filter, hb]

theorem curGeom_width {st : St} (h : pagesOk st) : (curGeom st).width = 612 :=
  h.2 _ (getD_mem st.pages st.pi ⟨612, 792⟩ h.1)

theorem emit_runs (st : St) (b : Bool) (t : List Char) :
    (emit st b t).runs = st.runs ++ [⟨t, b, st.pi, st.x, st.y⟩] := rfl

theorem emit_monoSt {st : St} {b : Bool} {t : List Char} (h : monoSt st) :
    monoSt (emit st b t) := by
  intro r hr
  rw [emit_runs] at hr
  rcases List.mem_append.1 hr with hr | hr
  · exact h r hr
  · simp only [List.mem_singleton] at hr
    subst hr
    exact ⟨Nat.le_refl _, fun _ => le_refl _⟩

theorem emit_closedGood {cwR cwB : Char → Nat} {st : St} {b : Bool} {t : List Char}
    (h : closedGood cwR cwB st) : closedGood cwR cwB (emit st b t) := by
  intro p y hne
  have hline : lineOf (emit st b t).runs p y = lineOf st.runs p y := by
    rw [emit_runs, lineOf_append, if_neg]
    intro hc
    exact hne ⟨hc.1.symm ▸ rfl, hc.2.symm ▸ rfl⟩
  rw [hline]
  exact h p y hne

theorem emit_runsX {st : St} {b : Bool} {t : List Char} (h : runsX st)
    (hx : 50 ≤ st.x) : runsX (emit st b t) := by
  intro r hr
  rcases List.mem_append.1 hr with hr | hr
  · exact h r hr
  · simp only [List.mem_singleton] at hr
    subst hr
    exact hx

theorem curC_good {cwR cwB : Char → Nat} {st : St} (h : curC cwR cwB st) :
    goodLine cwR cwB (lineOf st.runs st.pi st.y) := by
  rcases h with h | ⟨r, hr, hov, _⟩
  · exact Or.inl fun r hr => (h r hr).1
  · exact Or.inr ⟨r, hr, hov⟩

theorem allGood_mk {cwR cwB : Char → Nat} {st : St} (hcg : closedGood cwR cwB st)
    (hcur : goodLine cwR cwB (lineOf st.runs st.pi st.y)) : allGood cwR cwB st.runs := by
  intro p y
  by_cases h : p = st.pi ∧ y = st.y
  · obtain ⟨rfl, rfl⟩ := h
    exact hcur
  · exact hcg p y h

theorem pageCheck_fresh (st : St)
    (h : ∀ r ∈ st.runs, r.page ≤ st.pi ∧ (r.page = st.pi → st.y < r.y)) :
    monoSt (pageCheck st) ∧
      lineOf (pageCheck st).runs (pageCheck st).pi (pageCheck st).y = [] := by
  unfold pageCheck
  split_ifs with hy hlt
  · constructor
    · intro r hr
      obtain ⟨h1, _⟩ := h r hr
      constructor
      · dsimp only
        omega
      · intro he
        dsimp only at he
        omega
    · apply lineOf_eq_nil
      intro r hr hc
      obtain ⟨hc1, hc2⟩ := hc
      dsimp only at hc1
      obtain ⟨h1, _⟩ := h r hr
      omega
  · constructor
    · intro r hr
      obtain ⟨h1, _⟩ := h r hr
      constructor
      · dsimp only
        omega
      · intro he
        dsimp only at he
        omega
    · apply lineOf_eq_nil
      intro r hr hc
      obtain ⟨hc1, hc2⟩ := hc
      dsimp only at hc1
      obtain ⟨h1, _⟩ := h r hr
      omega
  · constructor
    · intro r hr
      obtain ⟨h1, h2⟩ := h r hr
      exact ⟨h1, fun he => le_of_lt (h2 he)⟩
    · apply lineOf_eq_nil
      intro r hr hc
      obtain ⟨hc1, hc2⟩ := hc
      obtain ⟨h1, h2⟩ := h r hr
      have := h2 hc1
      omega

theorem newline_stInv (cwR cwB : Char → Nat) (st : St) (x' : Int) (hx' : 50 ≤ x')
    (hp : pagesOk st) (hm : monoSt st) (hcg : closedGood cwR cwB st)
    (hgood : goodLine cwR cwB (lineOf st.runs st.pi st.y)) (hrx : runsX st) :
    stInv cwR cwB (pageCheck { st with y := st.y - 16, x := x' }) ∧
      lineOf (pageCheck { st with y := st.y - 16, x := x' }).runs
        (pageCheck { st with y := st.y - 16, x := x' }).pi
        (pageCheck { st with y := st.y - 16, x := x' }).y = [] ∧
      (pageCheck { st with y := st.y - 16, x := x' }).runs = st.runs ∧
      (pageCheck { st with y := st.y - 16, x := x' }).x = x' := by
  have hall : allGood cwR cwB st.runs := allGood_mk hcg hgood
  have hstrict : ∀ r ∈ ({ st with y := st.y - 16, x := x' } : St).runs,
      r.page ≤ ({ st with y := st.y - 16, x := x' } : St).pi ∧
      (r.page = ({ st with y := st.y - 16, x := x' } : St).pi →
        ({ st with y := st.y - 16, x := x' } : St).y < r.y) := by
    intro r hr
    obtain ⟨h1, h2⟩ := hm r hr
    refine ⟨h1, fun he => ?_⟩
    have := h2 he
    simp only
    omega
  obtain ⟨hmono, hempty⟩ := pageCheck_fresh _ hstrict
  have hruns : (pageCheck { st with y := st.y - 16, x := x' }).runs = st.runs :=
    pageCheck_runs _
  have hxx : (pageCheck { st with y := st.y - 16, x := x' }).x = x' :=
    pageCheck_x _
  refine ⟨⟨?_, hmono, ?_, ?_, ?_, ?_⟩, hempty, hruns, hxx⟩
  · exact pageCheck_pagesOk hp
  · intro p y _
    rw [hruns]
    exact hall p y
  · left
    intro r hr
    rw [hempty] at hr
    exact absurd hr (List.not_mem_nil r)
  · rw [hxx]
    exact hx'
  · intro r hr
    rw [hruns] at hr
    exact hrx r hr

theorem emit_cur_curC {cwR cwB : Char → Nat} {b : Bool} {st : St} {cur : List Char}
    (hcc : curC cwR cwB st) (hcur : curInv (sel cwR cwB b) st cur)
    (hne : cur ≠ []) :
    (∀ r ∈ lineOf (emit st b cur).runs st.pi st.y,
        fitsRun cwR cwB r ∧
          rext cwR cwB r ≤ st.x + (widthOf (sel cwR cwB b) (cur ++ [' ']) : Int)) ∨
      (∃ r, lineOf (emit st b cur).runs st.pi st.y = [r] ∧ overflowRun cwR cwB r ∧
        562 < st.x + (widthOf (sel cwR cwB b) (cur ++ [' ']) : Int)) := by
  have hwle : (widthOf (sel cwR cwB b) cur : Int) ≤
      (widthOf (sel cwR cwB b) (cur ++ [' ']) : Int) := by
    rw [widthOf_append]
    push_cast
    have : (0 : Int) ≤ (widthOf (sel cwR cwB b) [' '] : Int) := Int.natCast_nonneg _
    omega
  have hw0 : (0 : Int) ≤ (widthOf (sel cwR cwB b) cur : Int) := Int.natCast_nonneg _
  have hline : lineOf (emit st b cur).runs st.pi st.y =
      lineOf st.runs st.pi st.y ++ [⟨cur, b, st.pi, st.x, st.y⟩] := by
    rw [emit_runs, lineOf_append, if_pos ⟨rfl, rfl⟩]
  have hrext : rext cwR cwB ⟨cur, b, st.pi, st.x, st.y⟩ =
      st.x + (widthOf (sel cwR cwB b) cur : Int) := rfl
  rcases hcur with hcur | hcur | hcur
  · exact absurd hcur hne
  · -- the last width test for `cur` passed
    rcases hcc with hall | ⟨r, hr, hov, hx562⟩
    · left
      intro r hr
      rw [hline] at hr
      rcases List.mem_append.1 hr with hr | hr
      · obtain ⟨hf, hxr⟩ := hall r hr
        exact ⟨hf, by omega⟩
      · simp only [List.mem_singleton] at hr
        subst hr
        refine ⟨?_, ?_⟩
        · rw [fitsRun, hrext]
          exact hcur
        · rw [hrext]
          omega
    · exfalso
      omega
  · -- `cur` is a freshly rejected word on an empty fresh line
    obtain ⟨hx50, hempty, hnospace⟩ := hcur
    have hsingle : lineOf (emit st b cur).runs st.pi st.y =
        [⟨cur, b, st.pi, st.x, st.y⟩] := by
      rw [hline, hempty, List.nil_append]
    by_cases hbig : 512 < (widthOf (sel cwR cwB b) cur : Int)
    · right
      refine ⟨_, hsingle, ⟨hbig, hnospace⟩, ?_⟩
      omega
    · left
      intro r hr
      rw [hsingle] at hr
      simp only [List.mem_singleton] at hr
      subst hr
      refine ⟨?_, ?_⟩
      · rw [fitsRun, hrext]
        omega
      · rw [hrext]
        omega

theorem procWords_stInv (cwR cwB : Char → Nat) (b : Bool) :
    ∀ (ws : List (List Char)) (cur : List Char) (st : St),
      stInv cwR cwB st → curInv (sel cwR cwB b) st cur → (∀ u ∈ ws, ' ' ∉ u) →
      stInv cwR cwB (procWords cwR cwB b ws cur st) := by
  intro ws
  induction ws with
  | nil =>
      intro cur st hinv hcur _
      obtain ⟨hp, hm, hcg, hcc, hx, hrx⟩ := hinv
      simp only [procWords]
      by_cases hce : cur.isEmpty = true
      · simp only [if_pos hce]
        exact ⟨hp, hm, hcg, hcc, hx, hrx⟩
      · simp only [if_neg hce]
        have hne : cur ≠ [] := by
          cases cur
          · simp at hce
          · simp
        have hstep := emit_cur_curC (b := b) hcc hcur hne
        refine ⟨?_, ?_, ?_, ?_, ?_, ?_⟩
        · exact hp
        · exact emit_monoSt hm
        · exact emit_closedGood hcg
        · exact hstep
        · have h0 : (0 : Int) ≤ (widthOf (sel cwR cwB b) (cur ++ [' ']) : Int) :=
            Int.natCast_nonneg _
          have hex : (emit st b cur).x = st.x := rfl
          dsimp only
          omega
        · exact emit_runsX hrx hx
  | cons w ws ih =>
      intro cur st hinv hcur hws
      obtain ⟨hp, hm, hcg, hcc, hx, hrx⟩ := hinv
      simp only [procWords]
      by_cases hce : cur.isEmpty = true
      · simp only [if_pos hce]
        have hnil : cur = [] := by
          cases cur
          · rfl
          · simp at hce
        by_cases hcond : (curGeom st).width - 50 <
            st.x + (widthOf (sel cwR cwB b) w : Int)
        · rw [if_pos hcond]
          have hnl := newline_stInv cwR cwB st 50
            (le_refl 50) hp hm hcg (curC_good hcc) hrx
          obtain ⟨hinv2, hempty2, _, hx2⟩ := hnl
          refine ih w _ hinv2 ?_ (fun u hu => hws u (List.mem_cons_of_mem w hu))
          exact Or.inr (Or.inr ⟨hx2, hempty2, hws w (List.mem_cons_self w ws)⟩)
        · rw [if_neg hcond]
          refine ih w st ⟨hp, hm, hcg, hcc, hx, hrx⟩ ?_
            (fun u hu => hws u (List.mem_cons_of_mem w hu))
          rw [curGeom_width hp] at hcond
          exact Or.inr (Or.inl (by omega))
      · simp only [if_neg hce]
        have hne : cur ≠ [] := by
          cases cur
          · simp at hce
          · simp
        by_cases hcond : (curGeom st).width - 50 <
            st.x + (widthOf (sel cwR cwB b) (cur ++ ' ' :: w) : Int)
        · rw [if_pos hcond]
          have hstep := emit_cur_curC (b := b) hcc hcur hne
          have hgood1 : goodLine cwR cwB
              (lineOf (emit st b cur).runs (emit st b cur).pi (emit st b cur).y) := by
            rcases hstep with h | ⟨r, hr, hov, _⟩
            · exact Or.inl fun r hrr => (h r hrr).1
            · exact Or.inr ⟨r, hr, hov⟩
          have hnl := newline_stInv cwR cwB (emit st b cur) 50
            (le_refl 50) hp (emit_monoSt hm) (emit_closedGood hcg) hgood1
            (emit_runsX hrx hx)
          obtain ⟨hinv2, hempty2, _, hx2⟩ := hnl
          refine ih w _ hinv2 ?_ (fun u hu => hws u (List.mem_cons_of_mem w hu))
          exact Or.inr (Or.inr ⟨hx2, hempty2, hws w (List.mem_cons_self w ws)⟩)
        · rw [if_neg hcond]
          refine ih (cur ++ ' ' :: w) st ⟨hp, hm, hcg, hcc, hx, hrx⟩ ?_
            (fun u hu => hws u (List.mem_cons_of_mem w hu))
          rw [curGeom_width hp] at hcond
          exact Or.inr (Or.inl (by omega))

theorem procPart_stInv {cwR cwB : Char → Nat} {st : St} (p : List Char)
    (hinv : stInv cwR cwB st) : stInv cwR cwB (procPart cwR cwB st p) := by
  unfold procPart
  split_ifs with hpe
  · exact hinv
  · exact procWords_stInv cwR cwB (isBoldPart p) _ [] st hinv (Or.inl rfl)
      (mem_splitOn_not_sep ' ' (stripPart p))

theorem foldl_procPart_stInv {cwR cwB : Char → Nat} (parts : List (List Char)) :
    ∀ st, stInv cwR cwB st → stInv cwR cwB (parts.foldl (procPart cwR cwB) st) := by
  induction parts with
  | nil => intro st h; exact h
  | cons p ps ih => intro st h; exact ih _ (procPart_stInv p h)

theorem procLine_stInv {cwR cwB : Char → Nat} {st : St} (l : List Char)
    (hinv : stInv cwR cwB st) (hempty : lineOf st.runs st.pi st.y = []) :
    stInv cwR cwB (procLine cwR cwB st l) ∧
      lineOf (procLine cwR cwB st l).runs (procLine cwR cwB st l).pi
        (procLine cwR cwB st l).y = [] := by
  obtain ⟨hp, hm, hcg, hcc, hx, hrx⟩ := hinv
  have hcurGood : goodLine cwR cwB (lineOf st.runs st.pi st.y) := by
    rw [hempty]
    exact Or.inl fun r hr => absurd hr (List.not_mem_nil r)
  have hall : allGood cwR cwB st.runs := allGood_mk hcg hcurGood
  unfold procLine
  split_ifs with hbl
  · refine ⟨⟨hp, ?_, ?_, ?_, hx, hrx⟩, ?_⟩
    · intro r hr
      obtain ⟨h1, h2⟩ := hm r hr
      refine ⟨h1, fun he => ?_⟩
      dsimp only at he ⊢
      have := h2 he
      omega
    · intro p y _
      exact hall p y
    · left
      intro r hr
      rw [mem_lineOf] at hr
      obtain ⟨hrm, hrp, hry⟩ := hr
      obtain ⟨h1, h2⟩ := hm r hrm
      dsimp only at hrp hry
      have := h2 hrp
      exfalso
      omega
    · apply lineOf_eq_nil
      intro r hr hc
      obtain ⟨hc1, hc2⟩ := hc
      obtain ⟨h1, h2⟩ := hm r hr
      dsimp only at hc1 hc2
      have := h2 hc1
      omega
  · have hinv0 : stInv cwR cwB ({ st with x := 50 }) := by
      refine ⟨hp, hm, hcg, ?_, le_refl 50, hrx⟩
      left
      intro r hr
      dsimp only at hr
      rw [hempty] at hr
      exact absurd hr (List.not_mem_nil r)
    have h1 := foldl_procPart_stInv (splitParts l) _ hinv0
    obtain ⟨hp1, hm1, hcg1, hcc1, hx1, hrx1⟩ := h1
    have hnl := newline_stInv cwR cwB
      ((splitParts l).foldl (procPart cwR cwB) { st with x := 50 })
      ((splitParts l).foldl (procPart cwR cwB) { st with x := 50 }).x hx1 hp1 hm1
      hcg1 (curC_good hcc1) hrx1
    exact ⟨hnl.1, hnl.2.1⟩

theorem foldl_procLine_stInv {cwR cwB : Char → Nat} (lines : List (List Char)) :
    ∀ st, stInv cwR cwB st → lineOf st.runs st.pi st.y = [] →
      stInv cwR cwB (lines.foldl (procLine cwR cwB) st) := by
  induction lines with
  | nil => intro st h _; exact h
  | cons l ls ih =>
      intro st h he
      obtain ⟨h1, h2⟩ := procLine_stInv l h he
      exact ih _ h1 h2

theorem layout3_stInv (cwR cwB : Char → Nat) {srcPages : List Geom} (text : List Char)
    (h1 : srcPages ≠ []) (h2 : ∀ g ∈ srcPages, g.width = 612) :
    stInv cwR cwB (layout3 cwR cwB srcPages text) := by
  unfold layout3
  apply foldl_procLine_stInv
  · refine ⟨⟨?_, h2⟩, ?_, ?_, ?_, le_refl 50, ?_⟩
    · cases srcPages with
      | nil => exact absurd rfl h1
      | cons g t => simp
    · intro r hr
      exact absurd hr (List.not_mem_nil r)
    · intro p y _
      exact Or.inl fun r hr => absurd hr (by simp [lineOf])
    · exact Or.inl fun r hr => absurd hr (by simp [lineOf])
    · intro r hr
      exact absurd hr (List.not_mem_nil r)
  · rfl

theorem layout3_allGood (cwR cwB : Char → Nat) {srcPages : List Geom} (text : List Char)
    (h1 : srcPages ≠ []) (h2 : ∀ g ∈ srcPages, g.width = 612) :
    allGood cwR cwB (layout3 cwR cwB srcPages text).runs := by
  obtain ⟨hp, hm, hcg, hcc, hx, hrx⟩ := layout3_stInv cwR cwB text h1 h2
  exact allGood_mk hcg (curC_good hcc)

theorem step2_inv2 (cwR cwB : Char → Nat) (b : Bool) {st : St} (t : List Char)
    (hwle : (widthOf (sel cwR cwB b) t : Int) ≤ 512) (h : inv2 cwR cwB st) :
    inv2 cwR cwB (pageCheck { emit { st with x := 50 } b t with
      y := (emit { st with x := 50 } b t).y - 16 }) := by
  obtain ⟨hp, hm, hw, hlen, hemp⟩ := h
  have he1 : (emit { st with x := 50 } b t).y = st.y := rfl
  have he2 : (emit { st with x := 50 } b t).pi = st.pi := rfl
  have hruns : (pageCheck { emit { st with x := 50 } b t with
      y := (emit { st with x := 50 } b t).y - 16 }).runs =
      st.runs ++ [⟨t, b, st.pi, 50, st.y⟩] := by
    rw [pageCheck_runs]
    rfl
  have hfresh := pageCheck_fresh
    ({ emit { st with x := 50 } b t with
      y := (emit { st with x := 50 } b t).y - 16 }) ?hstrict
  case hstrict =>
    intro r hr
    dsimp only at hr ⊢
    rcases List.mem_append.1 hr with hr | hr
    · obtain ⟨h1, h2⟩ := hm r hr
      refine ⟨h1, fun he => ?_⟩
      rw [he2] at he
      have := h2 he
      rw [he1]
      omega
    · simp only [List.mem_singleton] at hr
      subst hr
      rw [he1, he2]
      exact ⟨Nat.le_refl _, fun _ => by dsimp only; omega⟩
  refine ⟨pageCheck_pagesOk hp, hfresh.1, ?_, ?_, hfresh.2⟩
  · intro r hr
    rw [hruns] at hr
    rcases List.mem_append.1 hr with hr | hr
    · exact hw r hr
    · simp only [List.mem_singleton] at hr
      subst hr
      exact ⟨hwle, rfl⟩
  · intro p y
    rw [hruns, lineOf_append]
    split_ifs with hc
    · obtain ⟨hc1, hc2⟩ := hc
      dsimp only at hc1 hc2
      subst hc1
      subst hc2
      rw [hemp]
      simp
    · exact hlen p y

theorem procPart2F_inv2 {cwR cwB : Char → Nat} (b : Bool) :
    ∀ (fuel : Nat) (rem : List Char) (st : St), inv2 cwR cwB st →
      inv2 cwR cwB (procPart2F cwR cwB b 512 fuel rem st) := by
  intro fuel
  induction fuel with
  | zero => intro rem st h; exact h
  | succ n ih =>
      intro rem st h
      simp only [procPart2F]
      by_cases hre : rem.isEmpty = true
      · simp only [if_pos hre]
        exact h
      · simp only [if_neg hre]
        have hwle : (widthOf (sel cwR cwB b)
            (jsTrim (fitStep (sel cwR cwB b) 512 rem).1) : Int) ≤ 512 := by
          have hs := fitStep_fst_width (sel cwR cwB b) 512 (by norm_num) rem
          have ht := widthOf_jsTrim_le (sel cwR cwB b) (fitStep (sel cwR cwB b) 512 rem).1
          have ht' : (widthOf (sel cwR cwB b)
              (jsTrim (fitStep (sel cwR cwB b) 512 rem).1) : Int) ≤
              (widthOf (sel cwR cwB b) (fitStep (sel cwR cwB b) 512 rem).1 : Int) := by
            exact_mod_cast ht
          omega
        have hst2 := step2_inv2 cwR cwB b
          (jsTrim (fitStep (sel cwR cwB b) 512 rem).1) hwle h
        split_ifs with hprog
        · exact ih _ _ hst2
        · exact hst2

theorem dec16_inv2 {cwR cwB : Char → Nat} {st : St} (h : inv2 cwR cwB st) :
    inv2 cwR cwB { st with y := st.y - 16 } := by
  obtain ⟨hp, hm, hw, hlen, hemp⟩ := h
  refine ⟨hp, ?_, hw, hlen, ?_⟩
  · intro r hr
    obtain ⟨h1, h2⟩ := hm r hr
    refine ⟨h1, fun he => ?_⟩
    dsimp only at he ⊢
    have := h2 he
    omega
  · apply lineOf_eq_nil
    intro r hr hc
    obtain ⟨hc1, hc2⟩ := hc
    obtain ⟨h1, h2⟩ := hm r hr
    dsimp only at hc1 hc2
    have := h2 hc1
    omega

theorem foldl_parts2_inv2 {cwR cwB : Char → Nat} (parts : List (List Char)) :
    ∀ st, inv2 cwR cwB st →
      inv2 cwR cwB (parts.foldl
        (fun st p => if p.isEmpty then st
          else procPart2 cwR cwB (isBoldPart p) 512 (stripPart p) st) st) := by
  induction parts with
  | nil => intro st h; exact h
  | cons p ps ih =>
      intro st h
      apply ih
      by_cases hpe : p.isEmpty = true
      · simp only [if_pos hpe]
        exact h
      · simp only [if_neg hpe]
        exact procPart2F_inv2 (isBoldPart p) _ _ _ h

theorem procLine2_inv2 {cwR cwB : Char → Nat} (l : List Char) {st : St}
    (h : inv2 cwR cwB st) : inv2 cwR cwB (procLine2 cwR cwB 512 st l) := by
  unfold procLine2
  split_ifs with hbl
  · exact dec16_inv2 h
  · exact foldl_parts2_inv2 (splitParts (filterChars l)) st h

theorem foldl_procLine2_inv2 {cwR cwB : Char → Nat} (lines : List (List Char)) :
    ∀ st, inv2 cwR cwB st →
      inv2 cwR cwB (lines.foldl (procLine2 cwR cwB 512) st) := by
  induction lines with
  | nil => intro st h; exact h
  | cons l ls ih => intro st h; exact ih _ (procLine2_inv2 l h)

theorem layout2_inv2 (cwR cwB : Char → Nat) {srcPages : List Geom} (text : List Char)
    (h1 : srcPages ≠ []) (h2 : ∀ g ∈ srcPages, g.width = 612) :
    inv2 cwR cwB (layout2 cwR cwB srcPages text) := by
  have hmw : ((srcPages.headD ⟨612, 792⟩).width - 100 : Int) = 512 := by
    cases srcPages with
    | nil => exact absurd rfl h1
    | cons g t =>
        have := h2 g (List.mem_cons_self g t)
        simp [this]
  unfold layout2
  rw [hmw]
  apply foldl_procLine2_inv2
  refine ⟨⟨?_, h2⟩, ?_, ?_, ?_, rfl⟩
  · cases srcPages with
    | nil => exact absurd rfl h1
    | cons g t => simp
  · intro r hr
    exact absurd hr (List.not_mem_nil r)
  · intro r hr
    exact absurd hr (List.not_mem_nil r)
  · intro p y
    simp [lineOf]

theorem step2_charsOK (cwR cwB : Char → Nat) (b : Bool) {st : St} (t : List Char)
    (ht : ∀ c ∈ t, supported c = true) (h : charsOK st) :
    charsOK (pageCheck { emit { st with x := 50 } b t with
      y := (emit { st with x := 50 } b t).y - 16 }) := by
  intro r hr
  rw [pageCheck_runs] at hr
  dsimp only at hr
  rcases List.mem_append.1 hr with hr2 | hr2
  · exact h r hr2
  · simp only [List.mem_singleton] at hr2
    subst hr2
    exact ht

theorem procPart2F_charsOK (cwR cwB : Char → Nat) (b : Bool) (mw : Int) :
    ∀ (fuel : Nat) (rem : List Char) (st : St), charsOK st →
      (∀ c ∈ rem, supported c = true) →
      charsOK (procPart2F cwR cwB b mw fuel rem st) := by
  intro fuel
  induction fuel with
  | zero => intro rem st h _; exact h
  | succ n ih =>
      intro rem st h hrem
      simp only [procPart2F]
      by_cases hre : rem.isEmpty = true
      · simp only [if_pos hre]
        exact h
      · simp only [if_neg hre]
        have ht : ∀ c ∈ jsTrim (fitStep (sel cwR cwB b) mw rem).1, supported c = true :=
          fun c hc => hrem c (fitStep_fst_subset _ _ _ (jsTrim_subset _ hc))
        have hst2 := step2_charsOK cwR cwB b
          (jsTrim (fitStep (sel cwR cwB b) mw rem).1) ht h
        split_ifs with hprog
        · exact ih _ _ hst2 fun c hc => hrem c (fitStep_snd_subset _ _ _ hc)
        · exact hst2

theorem procLine2_charsOK (cwR cwB : Char → Nat) (mw : Int) (l : List Char) {st : St}
    (h : charsOK st) : charsOK (procLine2 cwR cwB mw st l) := by
  unfold procLine2
  split_ifs with hbl
  · intro r hr
    dsimp only at hr
    exact h r hr
  · have hsub : ∀ p ∈ splitParts (filterChars l), ∀ c ∈ p, supported c = true := by
      intro p hp c hc
      have := mem_splitParts_subset hp hc
      exact (List.mem_filter.1 this).2
    generalize hps : splitParts (filterChars l) = parts
    rw [hps] at hsub
    clear hps
    induction parts generalizing st with
    | nil => exact h
    | cons p ps ih =>
        rw [List.foldl_cons]
        apply ih
        · by_cases hpe : p.isEmpty = true
          · simp only [if_pos hpe]
            exact h
          · simp only [if_neg hpe]
            apply procPart2F_charsOK cwR cwB (isBoldPart p) mw _ _ _ h
            intro c hc
            exact hsub p (List.mem_cons_self p ps) c (stripPart_subset p hc)
        · intro q hq c hc
          exact hsub q (List.mem_cons_of_mem p hq) c hc

theorem foldl_procLine2_charsOK (cwR cwB : Char → Nat) (mw : Int)
    (lines : List (List Char)) :
    ∀ st, charsOK st → charsOK (lines.foldl (procLine2 cwR cwB mw) st) := by
  induction lines with
  | nil => intro st h; exact h
  | cons l ls ih =>
      intro st h
      exact ih _ (procLine2_charsOK cwR cwB mw l h)

theorem layout2_charsOK (cwR cwB : Char → Nat) (srcPages : List Geom)
    (text : List Char) : charsOK (layout2 cwR cwB srcPages text) := by
  unfold layout2
  apply foldl_procLine2_charsOK
  intro r hr
  exact absurd hr (List.not_mem_nil r)

theorem procWords_runs_subset {cwR cwB : Char → Nat} (b : Bool) :
    ∀ (ws : List (List Char)) (cur : List Char) (st : St),
      st.runs ⊆ (procWords cwR cwB b ws cur st).runs := by
  intro ws
  induction ws with
  | nil =>
      intro cur st
      simp only [procWords]
      split_ifs with h
      · exact fun r hr => hr
      · intro r hr
        exact List.mem_append_left _ hr
  | cons w ws ih =>
      intro cur st
      simp only [procWords]
      by_cases hce : cur.isEmpty = true
      · simp only [if_pos hce]
        split_ifs with hcond
        · refine List.Subset.trans ?_ (ih w _)
          rw [pageCheck_runs]
          exact fun r hr => hr
        · exact ih w st
      · simp only [if_neg hce]
        split_ifs with hcond
        · refine List.Subset.trans ?_ (ih w _)
          rw [pageCheck_runs]
          intro r hr
          exact List.mem_append_left _ hr
        · exact ih (cur ++ ' ' :: w) st

theorem procWords_cur_emitted {cwR cwB : Char → Nat} (b : Bool)
    (ws : List (List Char)) (cur : List Char) (st : St) (hp : pagesOk st)
    (hx : 50 ≤ st.x) (hw : 512 < (widthOf (sel cwR cwB b) cur : Int)) :
    ∃ r ∈ (procWords cwR cwB b ws cur st).runs,
      r.text = cur ∧ r.bold = b ∧ r.x = st.x := by
  have hne : cur ≠ [] := by
    intro h
    subst h
    simp [widthOf] at hw
  have hce : ¬ cur.isEmpty = true := by
    cases cur
    · exact absurd rfl hne
    · simp
  cases ws with
  | nil =>
      simp only [procWords]
      simp only [if_neg hce]
      exact ⟨⟨cur, b, st.pi, st.x, st.y⟩,
        List.mem_append_right _ (List.mem_singleton_self _), rfl, rfl, rfl⟩
  | cons w2 ws' =>
      simp only [procWords]
      simp only [if_neg hce]
      have hwle : widthOf (sel cwR cwB b) cur ≤
          widthOf (sel cwR cwB b) (cur ++ ' ' :: w2) :=
        widthOf_sublist_le _ (List.sublist_append_left cur (' ' :: w2))
      have hcond : (curGeom st).width - 50 <
          st.x + (widthOf (sel cwR cwB b) (cur ++ ' ' :: w2) : Int) := by
        rw [curGeom_width hp]
        have : (widthOf (sel cwR cwB b) cur : Int) ≤
            (widthOf (sel cwR cwB b) (cur ++ ' ' :: w2) : Int) := by exact_mod_cast hwle
        omega
      rw [if_pos hcond]
      have hmem : (⟨cur, b, st.pi, st.x, st.y⟩ : Run) ∈
          (pageCheck { emit st b cur with
            y := (emit st b cur).y - 16, x := 50 }).runs := by
        rw [pageCheck_runs]
        exact List.mem_append_right _ (List.mem_singleton_self _)
      exact ⟨_, procWords_runs_subset b ws' w2 _ hmem, rfl, rfl, rfl⟩

theorem procWords_xpOk {cwR cwB : Char → Nat} (b : Bool) :
    ∀ (ws : List (List Char)) (cur : List Char) (st : St), pagesOk st → 50 ≤ st.x →
      pagesOk (procWords cwR cwB b ws cur st) ∧
        50 ≤ (procWords cwR cwB b ws cur st).x := by
  intro ws
  induction ws with
  | nil =>
      intro cur st hp hx
      simp only [procWords]
      split_ifs with h
      · exact ⟨hp, hx⟩
      · constructor
        · exact hp
        · have h0 : (0 : Int) ≤ (widthOf (sel cwR cwB b) (cur ++ [' ']) : Int) :=
            Int.natCast_nonneg _
          have hex : (emit st b cur).x = st.x := rfl
          dsimp only
          omega
  | cons w ws ih =>
      intro cur st hp hx
      simp only [procWords]
      by_cases hce : cur.isEmpty = true
      · simp only [if_pos hce]
        split_ifs with hcond
        · refine ih w _ (pageCheck_pagesOk hp) ?_
          rw [pageCheck_x]
        · exact ih w st hp hx
      · simp only [if_neg hce]
        split_ifs with hcond
        · refine ih w _ (pageCheck_pagesOk hp) ?_
          rw [pageCheck_x]
        · exact ih (cur ++ ' ' :: w) st hp hx

theorem procWords_path {cwR cwB : Char → Nat} (b : Bool) :
    ∀ (ws : List (List Char)) (cur : List Char) (st : St), pagesOk st → 50 ≤ st.x →
      ∀ w ∈ ws, 512 < (widthOf (sel cwR cwB b) w : Int) →
      ∃ r ∈ (procWords cwR cwB b ws cur st).runs,
        r.text = w ∧ r.bold = b ∧ r.x = 50 := by
  intro ws
  induction ws with
  | nil => intro cur st _ _ w hw; exact absurd hw (List.not_mem_nil w)
  | cons w0 ws' ih =>
      intro cur st hp hx w hw hwide
      rcases List.mem_cons.1 hw with rfl | hmem
      · simp only [procWords]
        by_cases hce : cur.isEmpty = true
        · simp only [if_pos hce]
          have hcond : (curGeom st).width - 50 <
              st.x + (widthOf (sel cwR cwB b) w : Int) := by
            rw [curGeom_width hp]
            omega
          rw [if_pos hcond]
          obtain ⟨r, hr, h1, h2, h3⟩ := procWords_cur_emitted b ws' w
            (pageCheck { st with y := st.y - 16, x := 50 })
            (pageCheck_pagesOk hp) (by rw [pageCheck_x]) hwide
          exact ⟨r, hr, h1, h2, by rw [h3, pageCheck_x]⟩
        · simp only [if_neg hce]
          have hwle : widthOf (sel cwR cwB b) w ≤
              widthOf (sel cwR cwB b) (cur ++ ' ' :: w) := by
            calc widthOf (sel cwR cwB b) w
                ≤ widthOf (sel cwR cwB b) (' ' :: w) := by
                  rw [widthOf_cons]
                  omega
              _ ≤ widthOf (sel cwR cwB b) (cur ++ ' ' :: w) :=
                  widthOf_sublist_le _ (List.sublist_append_right cur (' ' :: w))
          have hcond : (curGeom st).width - 50 <
              st.x + (widthOf (sel cwR cwB b) (cur ++ ' ' :: w) : Int) := by
            rw [curGeom_width hp]
            have : (widthOf (sel cwR cwB b) w : Int) ≤
                (widthOf (sel cwR cwB b) (cur ++ ' ' :: w) : Int) := by
              exact_mod_cast hwle
            omega
          rw [if_pos hcond]
          obtain ⟨r, hr, h1, h2, h3⟩ := procWords_cur_emitted b ws' w
            (pageCheck { emit st b cur with y := (emit st b cur).y - 16, x := 50 })
            (pageCheck_pagesOk hp) (by rw [pageCheck_x]) hwide
          exact ⟨r, hr, h1, h2, by rw [h3, pageCheck_x]⟩
      · simp only [procWords]
        by_cases hce : cur.isEmpty = true
        · simp only [if_pos hce]
          split_ifs with hcond
          · exact ih w0 (pageCheck { st with y := st.y - 16, x := 50 })
              (pageCheck_pagesOk hp) (by rw [pageCheck_x]) w hmem hwide
          · exact ih w0 st hp hx w hmem hwide
        · simp only [if_neg hce]
          split_ifs with hcond
          · exact ih w0
              (pageCheck { emit st b cur with y := (emit st b cur).y - 16, x := 50 })
              (pageCheck_pagesOk hp) (by rw [pageCheck_x]) w hmem hwide
          · exact ih (cur ++ ' ' :: w0) st hp hx w hmem hwide

theorem procPart_runs_subset {cwR cwB : Char → Nat} (st : St) (p : List Char) :
    st.runs ⊆ (procPart cwR cwB st p).runs := by
  unfold procPart
  split_ifs with h
  · exact fun r hr => hr
  · exact procWords_runs_subset (isBoldPart p) _ [] st

theorem foldl_procPart_runs_subset {cwR cwB : Char → Nat} (parts : List (List Char)) :
    ∀ st, st.runs ⊆ (parts.foldl (procPart cwR cwB) st).runs := by
  induction parts with
  | nil => intro st; exact fun r hr => hr
  | cons p ps ih =>
      intro st
      exact List.Subset.trans (procPart_runs_subset st p) (ih _)

theorem procPart_xpOk {cwR cwB : Char → Nat} {st : St} (p : List Char)
    (hp : pagesOk st) (hx : 50 ≤ st.x) :
    pagesOk (procPart cwR cwB st p) ∧ 50 ≤ (procPart cwR cwB st p).x := by
  unfold procPart
  split_ifs with h
  · exact ⟨hp, hx⟩
  · exact procWords_xpOk (isBoldPart p) _ [] st hp hx

theorem procPart_path {cwR cwB : Char → Nat} {st : St} (p : List Char)
    (hp : pagesOk st) (hx : 50 ≤ st.x) (hpe : ¬ p.isEmpty = true)
    (w : List Char) (hw : w ∈ splitOn ' ' (stripPart p))
    (hwide : 512 < (widthOf (sel cwR cwB (isBoldPart p)) w : Int)) :
    ∃ r ∈ (procPart cwR cwB st p).runs,
      r.text = w ∧ r.bold = isBoldPart p ∧ r.x = 50 := by
  unfold procPart
  rw [if_neg hpe]
  exact procWords_path (isBoldPart p) _ [] st hp hx w hw hwide

theorem foldl_procPart_path {cwR cwB : Char → Nat} (parts : List (List Char)) :
    ∀ st, pagesOk st → 50 ≤ st.x →
      ∀ p ∈ parts, ¬ p.isEmpty = true →
      ∀ w ∈ splitOn ' ' (stripPart p),
        512 < (widthOf (sel cwR cwB (isBoldPart p)) w : Int) →
      ∃ r ∈ (parts.foldl (procPart cwR cwB) st).runs,
        r.text = w ∧ r.bold = isBoldPart p ∧ r.x = 50 := by
  induction parts with
  | nil => intro st _ _ p hp; exact absurd hp (List.not_mem_nil p)
  | cons q ps ih =>
      intro st hpg hx p hpmem hpe w hw hwide
      rw [List.foldl_cons]
      rcases List.mem_cons.1 hpmem with rfl | hmem
      · obtain ⟨r, hr, h1, h2, h3⟩ := procPart_path p hpg hx hpe w hw hwide
        exact ⟨r, foldl_procPart_runs_subset ps _ hr, h1, h2, h3⟩
      · obtain ⟨hpg2, hx2⟩ := procPart_xpOk q hpg hx
        exact ih _ hpg2 hx2 p hmem hpe w hw hwide

theorem procLine_runs_subset {cwR cwB : Char → Nat} (st : St) (l : List Char) :
    st.runs ⊆ (procLine cwR cwB st l).runs := by
  unfold procLine
  split_ifs with h
  · exact fun r hr => hr
  · rw [pageCheck_runs]
    intro r hr
    exact foldl_procPart_runs_subset (splitParts l) ({ st with x := 50 }) hr

theorem foldl_procLine_runs_subset {cwR cwB : Char → Nat} (lines : List (List Char)) :
    ∀ st, st.runs ⊆ (lines.foldl (procLine cwR cwB) st).runs := by
  induction lines with
  | nil => intro st; exact fun r hr => hr
  | cons l ls ih =>
      intro st
      exact List.Subset.trans (procLine_runs_subset st l) (ih _)

theorem foldl_procPart_xpOk {cwR cwB : Char → Nat} (parts : List (List Char)) :
    ∀ st, pagesOk st → 50 ≤ st.x →
      pagesOk (parts.foldl (procPart cwR cwB) st) ∧
        50 ≤ (parts.foldl (procPart cwR cwB) st).x := by
  induction parts with
  | nil => intro st hp hx; exact ⟨hp, hx⟩
  | cons p ps ih =>
      intro st hp hx
      obtain ⟨hp2, hx2⟩ := procPart_xpOk p hp hx
      exact ih _ hp2 hx2

theorem procLine_xpOk {cwR cwB : Char → Nat} {st : St} (l : List Char)
    (hp : pagesOk st) (hx : 50 ≤ st.x) :
    pagesOk (procLine cwR cwB st l) ∧ 50 ≤ (procLine cwR cwB st l).x := by
  unfold procLine
  split_ifs with h
  · exact ⟨hp, hx⟩
  · obtain ⟨hp2, hx2⟩ := foldl_procPart_xpOk (splitParts l) ({ st with x := 50 }) hp
      (le_refl 50)
    constructor
    · exact pageCheck_pagesOk hp2
    · rw [pageCheck_x]
      exact hx2

theorem procLine_path {cwR cwB : Char → Nat} {st : St} (l : List Char)
    (hp : pagesOk st) (hbl : ¬ (jsTrim l).isEmpty = true)
    (p : List Char) (hpmem : p ∈ splitParts l) (hpe : ¬ p.isEmpty = true)
    (w : List Char) (hw : w ∈ splitOn ' ' (stripPart p))
    (hwide : 512 < (widthOf (sel cwR cwB (isBoldPart p)) w : Int)) :
    ∃ r ∈ (procLine cwR cwB st l).runs,
      r.text = w ∧ r.bold = isBoldPart p ∧ r.x = 50 := by
  unfold procLine
  rw [if_neg hbl]
  obtain ⟨r, hr, h1, h2, h3⟩ := foldl_procPart_path (splitParts l)
    ({ st with x := 50 }) hp (le_refl 50) p hpmem hpe w hw hwide
  refine ⟨r, ?_, h1, h2, h3⟩
  rw [pageCheck_runs]
  exact hr

theorem foldl_procLine_path (cwR cwB : Char → Nat) (lines : List (List Char)) :
    ∀ st, pagesOk st → 50 ≤ st.x →
      ∀ l ∈ lines, ¬ (jsTrim l).isEmpty = true →
      ∀ p ∈ splitParts l, ¬ p.isEmpty = true →
      ∀ w ∈ splitOn ' ' (stripPart p),
        512 < (widthOf (sel cwR cwB (isBoldPart p)) w : Int) →
      ∃ r ∈ (lines.foldl (procLine cwR cwB) st).runs,
        r.text = w ∧ r.bold = isBoldPart p ∧ r.x = 50 := by
  induction lines with
  | nil => intro st _ _ l hl; exact absurd hl (List.not_mem_nil l)
  | cons l0 ls ih =>
      intro st hp hx l hlmem hbl p hpmem hpe w hw hwide
      rw [List.foldl_cons]
      rcases List.mem_cons.1 hlmem with rfl | hmem
      · obtain ⟨r, hr, h1, h2, h3⟩ := procLine_path l hp hbl p hpmem hpe w hw hwide
        exact ⟨r, foldl_procLine_runs_subset ls _ hr, h1, h2, h3⟩
      · obtain ⟨hp2, hx2⟩ := procLine_xpOk l0 hp hx
        exact ih _ hp2 hx2 l hmem hbl p hpmem hpe w hw hwide

theorem mem_enumFrom_getD {α : Type _} (d : α) :
    ∀ (l : List α) (i n : Nat), i < l.length → (n + i, l.getD i d) ∈ l.enumFrom n := by
  intro l
  induction l with
  | nil => intro i n h; simp at h
  | cons a t ih =>
      intro i n h
      cases i with
      | zero => simp [List.enumFrom]
      | succ j =>
          have hj := ih j (n + 1) (by simpa using h)
          simp only [List.enumFrom]
          have he : n + (j + 1) = (n + 1) + j := by omega
          rw [he]
          exact List.mem_cons_of_mem _ hj

theorem mem_enum_getD {α : Type _} (d : α) (l : List α) (i : Nat) (h : i < l.length) :
    (i, l.getD i d) ∈ l.enum := by
  have := mem_enumFrom_getD d l i 0 h
  simpa [List.enum] using this

set_option maxRecDepth 8000 in
theorem chunk25a : List.foldl (procLine cw1 cw1) ⟨[⟨612, 792⟩], 0, 50, 742, []⟩
    (List.replicate 25 ['a']) = ⟨[⟨612, 792⟩], 0, 52, 342, expRuns 25⟩ := by
  decide

set_option maxRecDepth 8000 in
theorem chunk25b : List.foldl (procLine cw1 cw1) ⟨[⟨612, 792⟩], 0, 52, 342, expRuns 25⟩
    (List.replicate 25 ['a']) = ⟨[⟨612, 792⟩, ⟨612, 792⟩], 1, 52, 646, expRuns 50⟩ := by
  decide

set_option maxRecDepth 8000 in
theorem chunk25c : List.foldl (procLine cw1 cw1)
    ⟨[⟨612, 792⟩, ⟨612, 792⟩], 1, 52, 646, expRuns 50⟩
    (List.replicate 25 ['a']) = ⟨[⟨612, 792⟩, ⟨612, 792⟩], 1, 52, 246, expRuns 75⟩ := by
  decide

set_option maxRecDepth 8000 in
theorem chunk25d : List.foldl (procLine cw1 cw1)
    ⟨[⟨612, 792⟩, ⟨612, 792⟩], 1, 52, 246, expRuns 75⟩
    (List.replicate 25 ['a']) =
    ⟨[⟨612, 792⟩, ⟨612, 792⟩, ⟨612, 792⟩], 2, 52, 550, expRuns 100⟩ := by
  decide

set_option maxRecDepth 4000 in
theorem text100_lines : splitOn '\n' text100 = List.replicate 100 ['a'] := by
  decide

theorem layout3_text100_eval : layout3 cw1 cw1 [⟨612, 792⟩] text100 =
    ⟨[⟨612, 792⟩, ⟨612, 792⟩, ⟨612, 792⟩], 2, 52, 550, expRuns 100⟩ := by
  unfold layout3
  rw [text100_lines]
  show List.foldl (procLine cw1 cw1) ⟨[⟨612, 792⟩], 0, 50, 742, []⟩
    (List.replicate 100 ['a']) = _
  rw [show List.replicate 100 (['a'] : List Char) = List.replicate 25 ['a'] ++
      (List.replicate 25 ['a'] ++ (List.replicate 25 ['a'] ++ List.replicate 25 ['a']))
    from by decide]
  rw [List.foldl_append, List.foldl_append, List.foldl_append]
  rw [chunk25a, chunk25b, chunk25c, chunk25d]

/-- C1: in the word-wrap layout (process-document route), every visual line
(the runs sharing one baseline on one page) either has all its runs ending
within `pageWidth - margin` — so the summed measured widths of its runs,
including the inter-word space widths accumulated into each run's x advance,
stay within `maxWidth = 612 - 2·50 = 512` — or it consists of exactly one
single-word run wider than `maxWidth` (the pathological case); and in the
character-wrap layout (generate-pdf route), every visual line is a single
run of measured width at most `maxWidth`.  Pages are Letter-width (also the
default geometry of appended pages); the glyph-width functions `cwR`, `cwB`
are arbitrary, covering every font size. -/
theorem C1_visual_line_width_invariant (cwR cwB : Char → Nat)
    (srcPages : List Geom) (text : List Char)
    (h1 : srcPages ≠ []) (h2 : ∀ g ∈ srcPages, g.width = 612) :
    (∀ p y, goodLine cwR cwB (lineOf (layout3 cwR cwB srcPages text).runs p y)) ∧
    (∀ p y, (lineOf (layout2 cwR cwB srcPages text).runs p y).length ≤ 1 ∧
      ∀ r ∈ lineOf (layout2 cwR cwB srcPages text).runs p y,
        (widthOf (sel cwR cwB r.bold) r.text : Int) ≤ 512 ∧ rext cwR cwB r ≤ 562) := by
  constructor
  · exact layout3_allGood cwR cwB text h1 h2
  · intro p y
    obtain ⟨hp, hm, hw, hlen, hemp⟩ := layout2_inv2 cwR cwB text h1 h2
    refine ⟨hlen p y, ?_⟩
    intro r hr
    rw [mem_lineOf] at hr
    obtain ⟨hw1, hx1⟩ := hw r hr.1
    refine ⟨hw1, ?_⟩
    unfold rext
    rw [hx1]
    omega

/-- C1, witness instance: a small concrete layout (two glyphs, unit widths)
satisfies the line-width invariant on the first baseline. -/
theorem C1_witness :
    goodLine cw1 cw1 (lineOf (layout3 cw1 cw1 [⟨612, 792⟩] ['h', 'i']).runs 0 742) :=
  (C1_visual_line_width_invariant cw1 cw1 [⟨612, 792⟩] ['h', 'i']
    (by decide) (by decide)).1 0 742

/-- C3, counterexample: the Gemini-route assembler (part_004) paints its
opaque background rectangle only on `pages[0]`.  For a two-page source
document, page index 1 receives no erase rectangle, so the claim "painted on
every page carried over from the source, not only on some of them" fails on
that variant. -/
theorem C3_counterexample :
    eraseFirstPage [⟨612, 792⟩, ⟨500, 300⟩] = [⟨0, 0, 0, 612, 792⟩] ∧
    ∀ op ∈ eraseFirstPage [⟨612, 792⟩, ⟨500, 300⟩], op.page ≠ 1 := by
  decide

/-- C3, amended: in the generate-pdf and process-document variants the erase
pass (`getPages().forEach(drawRectangle)`) issues exactly one full-page
background rectangle per carried-over page — rectangle `i` covers (0,0) to
(width, height) of page `i` — and it runs before any text is drawn; the
Gemini variant (part_004) erases only the first page. -/
theorem C3_amended_erase_coverage (pages : List Geom) (i : Nat)
    (h : i < pages.length) :
    (eraseAllPages pages).length = pages.length ∧
    (⟨i, 0, 0, (pages.getD i ⟨612, 792⟩).width,
      (pages.getD i ⟨612, 792⟩).height⟩ : RectOp) ∈ eraseAllPages pages := by
  constructor
  · simp [eraseAllPages]
  · unfold eraseAllPages
    exact List.mem_map_of_mem _ (mem_enum_getD (⟨612, 792⟩ : Geom) pages i h)

/-- C3, witness instance: on a two-page document the erase pass covers page 1
with its own full-page rectangle. -/
theorem C3_witness :
    (eraseAllPages [⟨612, 792⟩, ⟨500, 300⟩]).length =
      ([⟨612, 792⟩, ⟨500, 300⟩] : List Geom).length ∧
    (⟨1, 0, 0, (([⟨612, 792⟩, ⟨500, 300⟩] : List Geom).getD 1 ⟨612, 792⟩).width,
      (([⟨612, 792⟩, ⟨500, 300⟩] : List Geom).getD 1 ⟨612, 792⟩).height⟩ : RectOp) ∈
      eraseAllPages [⟨612, 792⟩, ⟨500, 300⟩] :=
  C3_amended_erase_coverage [⟨612, 792⟩, ⟨500, 300⟩] 1 (by decide)

/-- C4, counterexample: on the generate-pdf route (part_002), the input line
`Hello **World**` is NOT laid out as one visual line with two runs: the two
segments are drawn on two different baselines (742 and 726), each at
x = margin, and the first drawn text is trimmed to `Hello` (no trailing
space).  Unit glyph widths, so maxWidth = 512 is ample for both words. -/
theorem C4_counterexample :
    (layout2 cw1 cw1 [⟨612, 792⟩] hwLine).runs =
      [⟨['H', 'e', 'l', 'l', 'o'], false, 0, 50, 742⟩,
       ⟨['W', 'o', 'r', 'l', 'd'], true, 0, 50, 726⟩] ∧
    (742 : Int) ≠ 726 := by
  decide

/-- C4, amended: on the word-wrap route (part_003), for any glyph widths
ample enough for both words, `Hello **World**` produces exactly two runs on
the same baseline 742: `("Hello ", regular)` at x = 50 and
`("World", bold)` at x advanced past the first run's measured width (the
advance also includes the trailing-space width `width("Hello  ") ≥
width("Hello ")`).  The char-wrap generate-pdf route instead splits them
onto two baselines (see the counterexample). -/
theorem C4_amended_scenarioA (cwR cwB : Char → Nat)
    (h1 : (widthOf cwR ['H', 'e', 'l', 'l', 'o', ' ', ' '] : Int) ≤ 256)
    (h2 : (widthOf cwB ['W', 'o', 'r', 'l', 'd'] : Int) ≤ 256) :
    (layout3 cwR cwB [⟨612, 792⟩] hwLine).runs =
      [⟨['H', 'e', 'l', 'l', 'o', ' '], false, 0, 50, 742⟩,
       ⟨['W', 'o', 'r', 'l', 'd'], true, 0,
         50 + (widthOf cwR ['H', 'e', 'l', 'l', 'o', ' ', ' '] : Int), 742⟩] ∧
    50 + (widthOf cwR ['H', 'e', 'l', 'l', 'o', ' '] : Int) ≤
      50 + (widthOf cwR ['H', 'e', 'l', 'l', 'o', ' ', ' '] : Int) := by
  have e6 : (['H', 'e', 'l', 'l', 'o', ' '] : List Char) =
      ['H', 'e', 'l', 'l', 'o'] ++ [' '] := rfl
  have e7 : (['H', 'e', 'l', 'l', 'o', ' ', ' '] : List Char) =
      ['H', 'e', 'l', 'l', 'o', ' '] ++ [' '] := rfl
  have w56 : (widthOf cwR ['H', 'e', 'l', 'l', 'o'] : Int) ≤
      (widthOf cwR ['H', 'e', 'l', 'l', 'o', ' '] : Int) := by
    rw [e6, widthOf_append]
    push_cast
    omega
  have w67 : (widthOf cwR ['H', 'e', 'l', 'l', 'o', ' '] : Int) ≤
      (widthOf cwR ['H', 'e', 'l', 'l', 'o', ' ', ' '] : Int) := by
    rw [e7, widthOf_append]
    push_cast
    omega
  refine ⟨?_, by omega⟩
  show (procLine cwR cwB ⟨[⟨612, 792⟩], 0, 50, 742, []⟩ hwLine).runs = _
  unfold procLine
  rw [if_neg (show ¬ (jsTrim hwLine).isEmpty = true by decide)]
  rw [pageCheck_runs]
  rw [show splitParts hwLine =
    [['H', 'e', 'l', 'l', 'o', ' '], ['*', '*', 'W', 'o', 'r', 'l', 'd', '*', '*'], []]
    from by decide]
  rw [List.foldl_cons, List.foldl_cons, List.foldl_cons, List.foldl_nil]
  show (procPart cwR cwB (procPart cwR cwB
    (procWords cwR cwB false [['H', 'e', 'l', 'l', 'o'], []] []
      ⟨[⟨612, 792⟩], 0, 50, 742, []⟩)
    ['*', '*', 'W', 'o', 'r', 'l', 'd', '*', '*']) []).runs = _
  simp only [procWords]
  norm_num [curGeom, sel, pageCheck, emit]
  rw [if_neg (by omega :
        ¬ ((562 : Int) < 50 + ↑(widthOf cwR ['H', 'e', 'l', 'l', 'o']))),
     if_neg (by omega :
        ¬ ((562 : Int) < 50 + ↑(widthOf cwR ['H', 'e', 'l', 'l', 'o', ' '])))]
  show (procPart cwR cwB (procWords cwR cwB true [['W', 'o', 'r', 'l', 'd']] []
    ⟨[⟨612, 792⟩], 0, 50 + (widthOf cwR ['H', 'e', 'l', 'l', 'o', ' ', ' '] : Int), 742,
      [⟨['H', 'e', 'l', 'l', 'o', ' '], false, 0, 50, 742⟩]⟩) []).runs = _
  simp only [procWords]
  norm_num [curGeom, sel, pageCheck, emit]
  rw [if_neg (by omega :
    ¬ ((562 : Int) < 50 + ↑(widthOf cwR ['H', 'e', 'l', 'l', 'o', ' ', ' ']) +
      ↑(widthOf cwB ['W', 'o', 'r', 'l', 'd'])))]
  rfl

/-- C4, witness instance: the amended Scenario A theorem at unit glyph
widths. -/
theorem C4_witness :
    (layout3 cw1 cw1 [⟨612, 792⟩] hwLine).runs =
      [⟨['H', 'e', 'l', 'l', 'o', ' '], false, 0, 50, 742⟩,
       ⟨['W', 'o', 'r', 'l', 'd'], true, 0,
         50 + (widthOf cw1 ['H', 'e', 'l', 'l', 'o', ' ', ' '] : Int), 742⟩] ∧
    50 + (widthOf cw1 ['H', 'e', 'l', 'l', 'o', ' '] : Int) ≤
      50 + (widthOf cw1 ['H', 'e', 'l', 'l', 'o', ' ', ' '] : Int) :=
  C4_amended_scenarioA cw1 cw1 (by decide) (by decide)

/-- C5, counterexample: on the generate-pdf route (part_002), a word wider
than `maxWidth` IS split at character level: with glyph width 200
(maxWidth = 512), the single word `aaaa` (width 800) is drawn as two
fragments `aa` on successive baselines, refuting "placed alone on its own
visual line as a single run without splitting it at character level". -/
theorem C5_counterexample :
    (layout2 cw200 cw200 [⟨612, 792⟩] ['a', 'a', 'a', 'a']).runs =
      [⟨['a', 'a'], false, 0, 50, 742⟩, ⟨['a', 'a'], false, 0, 50, 726⟩] ∧
    (['a', 'a'] : List Char) ≠ ['a', 'a', 'a', 'a'] := by
  decide

/-- C5, amended: on the word-wrap route (part_003), every word whose
measured width alone exceeds `maxWidth = 512` is drawn as one run carrying
exactly the whole word, at x = margin, overflowing the right margin
(`rext > 562`), and alone on its visual line; the generate-pdf route instead
splits such words at character level (see the counterexample). -/
theorem C5_amended_word_wrap_no_split (cwR cwB : Char → Nat)
    (srcPages : List Geom) (text : List Char)
    (h1 : srcPages ≠ []) (h2 : ∀ g ∈ srcPages, g.width = 612)
    (l : List Char) (hl : l ∈ splitOn '\n' text)
    (hbl : ¬ (jsTrim l).isEmpty = true)
    (p : List Char) (hp : p ∈ splitParts l) (hpe : ¬ p.isEmpty = true)
    (w : List Char) (hw : w ∈ splitOn ' ' (stripPart p))
    (hwide : 512 < (widthOf (sel cwR cwB (isBoldPart p)) w : Int)) :
    ∃ r ∈ (layout3 cwR cwB srcPages text).runs,
      r.text = w ∧ r.x = 50 ∧ 562 < rext cwR cwB r ∧
        lineOf (layout3 cwR cwB srcPages text).runs r.page r.y = [r] := by
  have hpg : pagesOk (⟨srcPages, 0, 50,
      (srcPages.headD ⟨612, 792⟩).height - 50, []⟩ : St) := by
    refine ⟨?_, h2⟩
    cases srcPages with
    | nil => exact absurd rfl h1
    | cons g t => simp
  obtain ⟨r, hr, ht, hb, hx⟩ := foldl_procLine_path cwR cwB
    (splitOn '\n' text) _ hpg (le_refl 50) l hl hbl p hp hpe w hw hwide
  have hrr : r ∈ (layout3 cwR cwB srcPages text).runs := hr
  have hwide2 : 512 < (widthOf (sel cwR cwB r.bold) r.text : Int) := by
    rw [hb, ht]
    exact hwide
  have hrext : 562 < rext cwR cwB r := by
    unfold rext
    rw [hx]
    omega
  have hgood := layout3_allGood cwR cwB text h1 h2 r.page r.y
  have hrin : r ∈ lineOf (layout3 cwR cwB srcPages text).runs r.page r.y :=
    mem_lineOf.2 ⟨hrr, rfl, rfl⟩
  rcases hgood with hall | ⟨r2, hL, hov⟩
  · have hfit : rext cwR cwB r ≤ 562 := hall r hrin
    exact absurd hfit (by omega)
  · have heq : r = r2 := by
      rw [hL] at hrin
      simpa using hrin
    refine ⟨r, hrr, ht, hx, hrext, ?_⟩
    rw [hL, heq]

/-- C5, witness instance: with every glyph 600 wide, the word `aaaa` of the
line `aaaa bb` is emitted whole, at the margin, overflowing, alone on its
line. -/
theorem C5_witness :
    ∃ r ∈ (layout3 cwBig cwBig [⟨612, 792⟩]
        ['a', 'a', 'a', 'a', ' ', 'b', 'b']).runs,
      r.text = ['a', 'a', 'a', 'a'] ∧ r.x = 50 ∧ 562 < rext cwBig cwBig r ∧
        lineOf (layout3 cwBig cwBig [⟨612, 792⟩]
          ['a', 'a', 'a', 'a', ' ', 'b', 'b']).runs r.page r.y = [r] :=
  C5_amended_word_wrap_no_split cwBig cwBig [⟨612, 792⟩]
    ['a', 'a', 'a', 'a', ' ', 'b', 'b'] (by decide) (by decide)
    ['a', 'a', 'a', 'a', ' ', 'b', 'b'] (by decide) (by decide)
    ['a', 'a', 'a', 'a', ' ', 'b', 'b'] (by decide) (by decide)
    ['a', 'a', 'a', 'a'] (by decide) (by decide)

/-- C6, counterexample: when the cursor crosses below the margin and no
further source page exists, the code calls pdf-lib `addPage()` with no
arguments, which appends a page of the library default geometry 612 × 792 —
NOT a page with the first page's geometry.  With a single 500 × 300 source
page, the appended page is 612 × 792 and `y` resets to 742, not to
300 − 50 = 250. -/
theorem C6_counterexample :
    pageCheck ⟨[⟨500, 300⟩], 0, 50, 40, []⟩ =
      ⟨[⟨500, 300⟩, ⟨612, 792⟩], 1, 50, 742, []⟩ ∧
    (⟨612, 792⟩ : Geom) ≠ ⟨500, 300⟩ ∧ (742 : Int) ≠ 300 - 50 := by
  decide

/-- C6, amended: `y < margin` is the sole trigger of the page advance; on a
trigger the page index is incremented; if a page exists at the new index its
geometry is reused (`y` resets to that page's height − margin); otherwise a
page with pdf-lib's default Letter geometry 612 × 792 is appended —
regardless of the first page's geometry — and `y` resets to
792 − 50 = 742. -/
theorem C6_amended_page_advance (st : St) :
    (¬ st.y < 50 → pageCheck st = st) ∧
    (st.y < 50 →
      (pageCheck st).pi = st.pi + 1 ∧
      (st.pi + 1 < st.pages.length →
        (pageCheck st).pages = st.pages ∧
        (pageCheck st).y = (st.pages.getD (st.pi + 1) ⟨612, 792⟩).height - 50) ∧
      (¬ st.pi + 1 < st.pages.length →
        (pageCheck st).pages = st.pages ++ [⟨612, 792⟩] ∧
        (pageCheck st).y = 742)) := by
  unfold pageCheck
  split_ifs with hy hlt
  · constructor
    · intro h
      exact absurd hy h
    · intro _
      exact ⟨rfl, fun _ => ⟨rfl, rfl⟩, fun h => absurd hlt h⟩
  · constructor
    · intro h
      exact absurd hy h
    · intro _
      exact ⟨rfl, fun h => absurd h hlt, fun _ => ⟨rfl, rfl⟩⟩
  · constructor
    · intro _
      rfl
    · intro h
      exact absurd h hy

/-- C6, witness instance: the advance on a one-page 500 × 300 document. -/
theorem C6_witness :
    (pageCheck (⟨[⟨500, 300⟩], 0, 50, 40, []⟩ : St)).pi =
      (⟨[⟨500, 300⟩], 0, 50, 40, []⟩ : St).pi + 1 :=
  ((C6_amended_page_advance ⟨[⟨500, 300⟩], 0, 50, 40, []⟩).2 (by decide)).1

/-- C7, counterexample: the process-document word-wrap variant applies no
character filter: the raw line `é` (code point 0xE9, outside 0x20–0x7E) is
measured and drawn as-is, so the claim that every character outside
printable ASCII is dropped before segmentation fails on that route. -/
theorem C7_counterexample :
    (layout3 cw1 cw1 [⟨612, 792⟩] ['é']).runs = [⟨['é'], false, 0, 50, 742⟩] ∧
    supported 'é' = false := by
  decide

/-- C7, amended: on the generate-pdf route, `filterUnsupportedCharacters`
runs on each raw line before the emphasis split, so every string the width
measurement and draw steps receive consists solely of printable-ASCII
characters (0x20–0x7E); the process-document word-wrap variant performs no
such filtering (see the counterexample). -/
theorem C7_amended_filter_guard (cwR cwB : Char → Nat) (srcPages : List Geom)
    (text : List Char) :
    ∀ r ∈ (layout2 cwR cwB srcPages text).runs, ∀ c ∈ r.text,
      0x20 ≤ c.toNat ∧ c.toNat ≤ 0x7E := by
  intro r hr c hc
  have h := layout2_charsOK cwR cwB srcPages text r hr c hc
  unfold supported at h
  simp only [Bool.and_eq_true, decide_eq_true_eq] at h
  exact h

/-- C7, witness instance: the surviving character of the filtered line
`hé`. -/
theorem C7_witness : 0x20 ≤ 'h'.toNat ∧ 'h'.toNat ≤ 0x7E :=
  C7_amended_filter_guard cw1 cw1 [⟨612, 792⟩] ['h', 'é']
    ⟨['h'], false, 0, 50, 742⟩ (by decide) 'h' (by decide)

/-- C8, counterexample: with 100 one-visual-line inputs, lineHeight 16,
page height 792 and margin 50, the first page holds 44 drawn baselines
(742 down to 54), not floor(692/16) = 43 — the code draws a line whenever
its baseline was at or above the margin before the decrement, giving
capacity 44. -/
theorem C8_counterexample :
    ((layout3 cw1 cw1 [⟨612, 792⟩] text100).runs.filter
      (fun r => r.page == 0)).length ≠ 43 := by
  rw [layout3_text100_eval]
  decide

/-- C8, amended: Scenario C yields exactly 3 pages as the claim states, but
with 44 usable baselines per page (ceil(100/44) = 3): pages 0 and 1 carry 44
lines each and page 2 the remaining 12. -/
theorem C8_amended_three_pages :
    (layout3 cw1 cw1 [⟨612, 792⟩] text100).pages.length = 3 ∧
    ((layout3 cw1 cw1 [⟨612, 792⟩] text100).runs.filter
      (fun r => r.page == 0)).length = 44 := by
  rw [layout3_text100_eval]
  decide

/-- C9, counterexample: with the primary path failing (load rejected) and
the fallback's font embedding succeeding, a translated text containing a
glyph outside WinAnsi — here the Devanagari letter न (U+0928), the normal
case for this app's Hindi output — makes the fallback's own `drawText`
throw, and that error escapes to the caller — so "only a failure of the
fallback's own font embedding escapes" is false. -/
theorem C9_counterexample :
    winAnsi 'न' = false ∧
    createTranslatedPdf4 winAnsi false true true true [⟨612, 792⟩] ['न'] =
      Except.error PdfErr.encodeErr ∧
    PdfErr.encodeErr ≠ PdfErr.embedErr :=
  ⟨by decide, rfl, by decide⟩

/-- C9, amended: the caller-visible contract is binary — a complete document
or an explicit error, never a partial one: whenever `createTranslatedPdf`
returns an error, the failure arose inside the fallback itself (its font
embedding, or its drawing of an unencodable glyph); and whenever the primary
path fails but the fallback succeeds, the result is exactly the fallback's
fresh document: one 612 × 792 page, one regular font, the entire unwrapped
text drawn once at (50, 750). -/
theorem C9_amended_fallback_contract (canEnc : Char → Bool)
    (loadOk embedOk fbEmbedOk : Bool) (mimePdf : Bool)
    (srcPages : List Geom) (text : List Char) :
    (∀ e, createTranslatedPdf4 canEnc loadOk embedOk fbEmbedOk mimePdf srcPages text =
        .error e → fbEmbedOk = false ∨ text.all canEnc = false) ∧
    ((∃ e, primary4 canEnc loadOk embedOk mimePdf srcPages text = .error e) →
      fbEmbedOk = true → text.all canEnc = true →
      createTranslatedPdf4 canEnc loadOk embedOk fbEmbedOk mimePdf srcPages text =
        .ok ⟨[⟨612, 792⟩], 1, [], [⟨text, 50, 750⟩]⟩) := by
  cases hpr : primary4 canEnc loadOk embedOk mimePdf srcPages text with
  | ok d =>
      have hcp : createTranslatedPdf4 canEnc loadOk embedOk fbEmbedOk mimePdf
          srcPages text = .ok d := by
        unfold createTranslatedPdf4
        rw [hpr]
      constructor
      · intro e he
        rw [hcp] at he
        exact absurd he (by simp)
      · rintro ⟨e, he⟩ _ _
        exact absurd he (by simp)
  | error e0 =>
      have hcp : createTranslatedPdf4 canEnc loadOk embedOk fbEmbedOk mimePdf
          srcPages text = fallback4 canEnc fbEmbedOk text := by
        unfold createTranslatedPdf4
        rw [hpr]
      constructor
      · intro e he
        rw [hcp] at he
        unfold fallback4 at he
        by_cases hfb : fbEmbedOk = true
        · rw [if_pos hfb] at he
          by_cases henc : text.all canEnc = true
          · rw [if_pos henc] at he
            exact absurd he (by simp)
          · exact Or.inr (by simpa using henc)
        · exact Or.inl (by simpa using hfb)
      · rintro ⟨e, he⟩ hfb henc
        rw [hcp]
        unfold fallback4
        rw [if_pos hfb, if_pos henc]

/-- C9, witness instance: load fails, the fallback succeeds, the caller gets
the complete fallback document. -/
theorem C9_witness :
    createTranslatedPdf4 winAnsi false true true true [⟨612, 792⟩] ['h'] =
      .ok ⟨[⟨612, 792⟩], 1, [], [⟨['h'], 50, 750⟩]⟩ :=
  (C9_amended_fallback_contract winAnsi false true true true [⟨612, 792⟩] ['h']).2
    ⟨PdfErr.loadErr, rfl⟩ rfl (by decide)

/-- C10, witness instance: the fitting step strictly shrinks `ab` when each
glyph (width 1) fits within maxWidth 5. -/
theorem C10_witness :
    (fitStep cw1 5 ('a' :: ['b'])).2.length < ('a' :: ['b']).length :=
  C10_amended_progress cw1 5 'a' ['b'] (by decide)

end Anuvad
